import Mathlib

/-!
Verification development for the call-graph / impact / prioritization core of
`pytest-coverage-impact`.

The Python data structures are shallowly embedded:
* `dict`/`defaultdict` graphs become a list of keys (insertion order) plus a
  total node function, read through `lookupNode` which returns the default
  node outside the key set (mirroring `defaultdict` read semantics);
* Python `set` fields become `Finset String`;
* Python floats are modelled as exact rationals (`ℚ`);
* machine integers are `Nat`/`Int` (no overflow is possible in the source:
  Python integers are unbounded).
-/

/-- One value of the `defaultdict` in `CallGraph.__init__`
(`call_graph.py`, lines 12-23). -/
structure NodeData where
  calls : Finset String
  called_by : Finset String
  file : Option String
  line : Option Nat
  is_method : Bool
  class_name : Option String
deriving DecidableEq

/-- The default node produced by the `defaultdict` factory:
empty `calls`/`called_by`, `file = None`, `line = None`,
`is_method = False`, `class_name = None`. -/
def defaultNode : NodeData :=
  { calls := ∅, called_by := ∅, file := none, line := none
    is_method := false, class_name := none }

/-- The `CallGraph.graph` dictionary: keys in insertion order plus the stored
node data.  Entries outside `keys` are unobservable (all reads go through
`lookupNode`). -/
structure CallGraph where
  keys : List String
  node : String → NodeData

/-- Python dict key insertion: append if absent (insertion order preserved). -/
def insertKey (ks : List String) (k : String) : List String :=
  if k ∈ ks then ks else ks ++ [k]

/-- Reading `graph[f]`: a present key yields its data, a missing key yields
the `defaultdict` default value. -/
def lookupNode (g : CallGraph) (f : String) : NodeData :=
  if f ∈ g.keys then g.node f else defaultNode

/-- Writing `graph[k] = d` (also models the materialization a `defaultdict`
access performs: the key becomes present). -/
def setNode (g : CallGraph) (k : String) (d : NodeData) : CallGraph :=
  { keys := insertKey g.keys k, node := fun x => if x = k then d else g.node x }

/-- A bare `graph[k]` access on a `defaultdict`: materializes the key with its
current (possibly default) value. -/
def touchKey (g : CallGraph) (k : String) : CallGraph :=
  setNode g k (lookupNode g k)

/-- `CallGraph()`: empty graph. -/
def emptyCallGraph : CallGraph := { keys := [], node := fun _ => defaultNode }

/-- `CallGraph.add_function` (`call_graph.py`, lines 25-37): sets the
`file`/`line`/`is_method`/`class_name` fields of `graph[full_name]`,
preserving any existing edge sets. -/
def addFunction (g : CallGraph) (full_name : String) (file_path : String)
    (line : Nat) (is_method : Bool) (class_name : Option String) : CallGraph :=
  setNode g full_name
    { lookupNode g full_name with
      file := some file_path, line := some line
      is_method := is_method, class_name := class_name }

/-- `CallGraph.add_call` (`call_graph.py`, lines 39-42):
`graph[caller]["calls"].add(callee)` then
`graph[callee]["called_by"].add(caller)`. -/
def addCall (g : CallGraph) (caller callee : String) : CallGraph :=
  let g1 := setNode g caller
    { lookupNode g caller with calls := insert callee (lookupNode g caller).calls }
  setNode g1 callee
    { lookupNode g1 callee with called_by := insert caller (lookupNode g1 callee).called_by }

/-! ### Basic lookup lemmas -/

theorem mem_insertKey {ks : List String} {k x : String} :
    x ∈ insertKey ks k ↔ x = k ∨ x ∈ ks := by
  unfold insertKey
  by_cases h : k ∈ ks
  · simp only [h, if_true]
    constructor
    · exact Or.inr
    · rintro (rfl | hx)
      · exact h
      · exact hx
  · simp only [h, if_false, List.mem_append, List.mem_singleton]
    exact or_comm

theorem lookupNode_setNode (g : CallGraph) (k : String) (d : NodeData) (x : String) :
    lookupNode (setNode g k d) x = if x = k then d else lookupNode g x := by
  unfold lookupNode setNode
  by_cases hxk : x = k
  · subst hxk; simp [mem_insertKey]
  · simp only [hxk, if_false]
    by_cases hx : x ∈ g.keys
    · simp [mem_insertKey, hx, hxk]
    · simp [mem_insertKey, hx, hxk]

theorem keys_setNode (g : CallGraph) (k : String) (d : NodeData) :
    (setNode g k d).keys = insertKey g.keys k := rfl

theorem lookupNode_touchKey (g : CallGraph) (k x : String) :
    lookupNode (touchKey g k) x = lookupNode g x := by
  unfold touchKey
  rw [lookupNode_setNode]
  by_cases h : x = k
  · subst h; simp
  · simp [h]

/-- Effect of `addCall` on `calls` sets. -/
theorem calls_addCall (g : CallGraph) (x y j : String) :
    (lookupNode (addCall g x y) j).calls =
      if j = x then insert y (lookupNode g x).calls else (lookupNode g j).calls := by
  unfold addCall
  simp only [lookupNode_setNode]
  by_cases hjy : j = y
  · subst hjy
    by_cases hjx : j = x
    · subst hjx; simp
    · simp [hjx]
  · simp only [hjy, if_false]
    by_cases hjx : j = x
    · subst hjx; simp
    · simp [hjx]

/-- Effect of `addCall` on `called_by` sets. -/
theorem called_by_addCall (g : CallGraph) (x y j : String) :
    (lookupNode (addCall g x y) j).called_by =
      if j = y then insert x (lookupNode g y).called_by else (lookupNode g j).called_by := by
  unfold addCall
  simp only [lookupNode_setNode]
  by_cases hjy : j = y
  · subst hjy
    by_cases hyx : j = x
    · subst hyx; simp
    · simp [hyx]
  · simp only [hjy, if_false]
    by_cases hjx : j = x
    · subst hjx; simp
    · simp [hjx]

/-- `addCall` leaves the metadata fields (`file`, `line`, `is_method`,
`class_name`) of every node unchanged. -/
theorem meta_addCall (g : CallGraph) (x y j : String) :
    (lookupNode (addCall g x y) j).file = (lookupNode g j).file ∧
    (lookupNode (addCall g x y) j).line = (lookupNode g j).line ∧
    (lookupNode (addCall g x y) j).is_method = (lookupNode g j).is_method ∧
    (lookupNode (addCall g x y) j).class_name = (lookupNode g j).class_name := by
  unfold addCall
  simp only [lookupNode_setNode]
  by_cases hjy : j = y
  · subst hjy
    by_cases hyx : j = x
    · subst hyx; simp
    · simp [hyx]
  · simp only [hjy, if_false]
    by_cases hjx : j = x
    · subst hjx; simp
    · simp [hjx]

theorem keys_addCall (g : CallGraph) (x y : String) :
    (addCall g x y).keys = insertKey (insertKey g.keys x) y := rfl

/-! ### String primitives

Structurally recursive models of the Python string operations the source
uses (`str.split`, `str.replace`, substring membership, `str.startswith` /
`str.endswith`), so that concrete instances evaluate inside the kernel. -/

/-- Does the first char list start with the second? -/
def charsStartsWith : List Char → List Char → Bool
  | _, [] => true
  | [], _ :: _ => false
  | c :: cs, p :: ps => (c == p) && charsStartsWith cs ps

/-- Auxiliary scanner for `pySplit`: left-to-right, non-overlapping
separator matches; `acc` holds the current piece reversed; the fuel is the
remaining input length plus one. -/
def splitChars (sep : List Char) : Nat → List Char → List Char → List (List Char)
  | 0, acc, _ => [acc.reverse]
  | _ + 1, acc, [] => [acc.reverse]
  | fuel + 1, acc, c :: cs =>
    if charsStartsWith (c :: cs) sep then
      acc.reverse :: splitChars sep fuel [] ((c :: cs).drop sep.length)
    else
      splitChars sep fuel (c :: acc) cs

/-- Python `s.split(sep)` for non-empty `sep` (the only way the source calls
it): split on left-to-right non-overlapping occurrences, keeping empty
pieces; `"".split(sep) == [""]`. -/
def pySplit (s sep : String) : List String :=
  (splitChars sep.toList (s.toList.length + 1) [] s.toList).map String.mk

/-- Python `s.replace(old, new)` for non-empty `old`
(equals `new.join(s.split(old))`). -/
def pyReplace (s old new : String) : String :=
  String.intercalate new (pySplit s old)

/-- Lexicographic comparison of char lists by code point. -/
def charListLe : List Char → List Char → Bool
  | [], _ => true
  | _ :: _, [] => false
  | a :: as, b :: bs =>
    if a.toNat < b.toNat then true
    else if b.toNat < a.toNat then false
    else charListLe as bs

/-- A total order on strings (lexicographic by code point), used only to
pick a canonical iteration order for Python sets. -/
def strLeB (a b : String) : Bool := charListLe a.toList b.toList

theorem charListLe_total : ∀ as bs, charListLe as bs = true ∨ charListLe bs as = true := by
  intro as
  induction as with
  | nil => intro bs; left; rfl
  | cons a as ih =>
    intro bs
    cases bs with
    | nil => right; rfl
    | cons b bs =>
      by_cases h1 : a.toNat < b.toNat
      · left; simp [charListLe, h1]
      · by_cases h2 : b.toNat < a.toNat
        · right; simp [charListLe, h2]
        · rcases ih bs with h | h
          · left; simp [charListLe, h1, h2, h]
          · right; simp [charListLe, h1, h2, h]

theorem charListLe_antisymm :
    ∀ as bs, charListLe as bs = true → charListLe bs as = true → as = bs := by
  intro as
  induction as with
  | nil =>
    intro bs _ hba
    cases bs with
    | nil => rfl
    | cons b bs => simp [charListLe] at hba
  | cons a as ih =>
    intro bs hab hba
    cases bs with
    | nil => simp [charListLe] at hab
    | cons b bs =>
      by_cases h1 : a.toNat < b.toNat
      · simp [charListLe, h1, Nat.lt_asymm h1] at hba
      · by_cases h2 : b.toNat < a.toNat
        · simp [charListLe, h1, h2] at hab
        · have hab2 : charListLe as bs = true := by
            simpa [charListLe, h1, h2] using hab
          have hba2 : charListLe bs as = true := by
            simpa [charListLe, h1, h2] using hba
          have heq : a = b := by
            have hn : a.toNat = b.toNat := by omega
            exact Char.eq_of_val_eq (UInt32.ext hn)
          rw [heq, ih bs hab2 hba2]

theorem charListLe_trans : ∀ as bs cs, charListLe as bs = true →
    charListLe bs cs = true → charListLe as cs = true := by
  intro as
  induction as with
  | nil => intro bs cs _ _; rfl
  | cons a as ih =>
    intro bs cs hab hbc
    cases bs with
    | nil => simp [charListLe] at hab
    | cons b bs =>
      cases cs with
      | nil => simp [charListLe] at hbc
      | cons c cs =>
        by_cases h1 : a.toNat < b.toNat <;> by_cases h2 : b.toNat < c.toNat
        · simp [charListLe]; omega
        · by_cases h3 : c.toNat < b.toNat
          · simp [charListLe, h2, h3] at hbc
          · simp [charListLe]; omega
        · by_cases h0 : b.toNat < a.toNat
          · simp [charListLe, h1, h0] at hab
          · simp [charListLe]; omega
        · by_cases h0 : b.toNat < a.toNat
          · simp [charListLe, h1, h0] at hab
          · by_cases h3 : c.toNat < b.toNat
            · simp [charListLe, h2, h3] at hbc
            · have hab2 : charListLe as bs = true := by
                simpa [charListLe, h1, h0] using hab
              have hbc2 : charListLe bs cs = true := by
                simpa [charListLe, h2, h3] using hbc
              have hac : a.toNat = c.toNat := by omega
              simp [charListLe, hac, Nat.lt_irrefl]
              exact ih bs cs hab2 hbc2

/-- `strLeB` as a relation. -/
def strLeR (a b : String) : Prop := strLeB a b = true

instance : DecidableRel strLeR := fun a b => instDecidableEqBool (strLeB a b) true

instance : IsTotal String strLeR := ⟨fun a b => charListLe_total a.toList b.toList⟩

instance : IsTrans String strLeR :=
  ⟨fun a b c => charListLe_trans a.toList b.toList c.toList⟩

instance : IsAntisymm String strLeR :=
  ⟨fun a b hab hba => by
    have hl := charListLe_antisymm a.toList b.toList hab hba
    exact String.ext (by simpa [String.toList] using hl)⟩

/-- A canonical element list of a `Finset String`, modelling Python `set`
iteration.  Python leaves the iteration order unspecified; every use below
is order-insensitive, and sorting makes the choice canonical (well-defined
on the underlying multiset). -/
def sortedList (s : Finset String) : List String :=
  Quotient.liftOn s.val (fun l => l.insertionSort strLeR)
    (fun l1 l2 h =>
      List.eq_of_perm_of_sorted
        (((l1.perm_insertionSort _).trans h).trans (l2.perm_insertionSort _).symm)
        (List.sorted_insertionSort _ l1)
        (List.sorted_insertionSort _ l2))

theorem sortedList_empty : sortedList (∅ : Finset String) = [] := rfl

/-! ### Impact propagation (`CallGraph.get_impact`, `call_graph.py` lines 161-192) -/

/-- The key set of the graph, as a `Finset`. -/
def keysFinset (g : CallGraph) : Finset String := g.keys.toFinset

theorem mem_keysFinset {g : CallGraph} {x : String} :
    x ∈ keysFinset g ↔ x ∈ g.keys := List.mem_toFinset

/-- A node whose `called_by` set is non-empty must be a present key:
reads of absent keys yield the default node with empty edge sets. -/
theorem mem_keys_of_called_by {g : CallGraph} {f c : String}
    (hc : c ∈ (lookupNode g f).called_by) : f ∈ keysFinset g := by
  rw [mem_keysFinset]
  by_contra hf
  rw [lookupNode, if_neg hf] at hc
  simp [defaultNode] at hc

/-- `CallGraph.get_impact` (`call_graph.py`, lines 161-192), value semantics.
The `visited` set is copied (`visited.copy()`) before each recursive call in
the source, so the computed value is a pure function of the graph, the
function name and the incoming visited set; the memoization cache
(`_impact_cache`) only replays values this function already computed at
top level and is therefore not modelled.  `visited = ∅` corresponds to a
top-level call with `visited=None`. -/
def getImpact (g : CallGraph) (f : String) (visited : Finset String) : Nat :=
  if f ∈ visited then 0
  else
    let cb := (lookupNode g f).called_by
    cb.card + cb.attach.sum (fun c => getImpact g c.1 (insert f visited))
termination_by (keysFinset g \ visited).card
decreasing_by
  have hf : f ∈ keysFinset g := mem_keys_of_called_by c.2
  rename_i hnot
  have hsub : keysFinset g \ insert f visited ⊆ keysFinset g \ visited :=
    Finset.sdiff_subset_sdiff (le_refl _) (Finset.subset_insert f visited)
  have hmemf : f ∈ keysFinset g \ visited := Finset.mem_sdiff.mpr ⟨hf, hnot⟩
  have hnm : f ∉ keysFinset g \ insert f visited := by
    simp [Finset.mem_sdiff]
  exact Finset.card_lt_card ⟨hsub, fun hrev => hnm (hrev hmemf)⟩

/-- Modelled from the spec: the path-counting reference definition of impact
(spec §4.4): "a sum over immediate callers of
`(1 + impact_excluding_already_visited(caller))`"; a node already in the
current chain's visited set contributes 0. -/
def impactRef (g : CallGraph) (f : String) (visited : Finset String) : Nat :=
  if f ∈ visited then 0
  else
    let cb := (lookupNode g f).called_by
    cb.attach.sum (fun c => 1 + impactRef g c.1 (insert f visited))
termination_by (keysFinset g \ visited).card
decreasing_by
  have hf : f ∈ keysFinset g := mem_keys_of_called_by c.2
  rename_i hnot
  have hsub : keysFinset g \ insert f visited ⊆ keysFinset g \ visited :=
    Finset.sdiff_subset_sdiff (le_refl _) (Finset.subset_insert f visited)
  have hmemf : f ∈ keysFinset g \ visited := Finset.mem_sdiff.mpr ⟨hf, hnot⟩
  have hnm : f ∉ keysFinset g \ insert f visited := by
    simp [Finset.mem_sdiff]
  exact Finset.card_lt_card ⟨hsub, fun hrev => hnm (hrev hmemf)⟩

theorem getImpact_eq_impactRef (g : CallGraph) (f : String) (visited : Finset String) :
    getImpact g f visited = impactRef g f visited := by
  rw [getImpact, impactRef]
  by_cases h : f ∈ visited
  · simp [h]
  · simp only [h, if_false]
    rw [Finset.sum_add_distrib, Finset.sum_const, Finset.card_attach, smul_eq_mul, mul_one]
    congr 1
    apply Finset.sum_congr rfl
    intro c _
    exact getImpact_eq_impactRef g c.1 (insert f visited)
termination_by (keysFinset g \ visited).card
decreasing_by
  have hf : f ∈ keysFinset g := mem_keys_of_called_by c.2
  have hsub : keysFinset g \ insert f visited ⊆ keysFinset g \ visited :=
    Finset.sdiff_subset_sdiff (le_refl _) (Finset.subset_insert f visited)
  have hmemf : f ∈ keysFinset g \ visited := Finset.mem_sdiff.mpr ⟨hf, h⟩
  have hnm : f ∉ keysFinset g \ insert f visited := by
    simp [Finset.mem_sdiff]
  exact Finset.card_lt_card ⟨hsub, fun hrev => hnm (hrev hmemf)⟩

/-- Fuel-bounded unfolding of `get_impact`; used to state that the recursion
in `get_impact` stabilizes (terminates) once the fuel exceeds the number of
unvisited keys, and to evaluate concrete instances. -/
def getImpactFuel : Nat → CallGraph → String → Finset String → Nat
  | 0, _, _, _ => 0
  | Nat.succ fuel, g, f, visited =>
    if f ∈ visited then 0
    else
      let cb := (lookupNode g f).called_by
      cb.card + cb.sum (fun c => getImpactFuel fuel g c (insert f visited))

/-- Once the fuel exceeds the number of keys not yet visited, the fueled
computation agrees with `getImpact`: the recursion terminates. -/
theorem getImpactFuel_eq (fuel : Nat) :
    ∀ (g : CallGraph) (f : String) (visited : Finset String),
      (keysFinset g \ visited).card < fuel →
      getImpactFuel fuel g f visited = getImpact g f visited := by
  induction fuel with
  | zero => intro g f visited h; omega
  | succ fuel ih =>
    intro g f visited h
    rw [getImpact]
    by_cases hv : f ∈ visited
    · simp [getImpactFuel, hv]
    · simp only [getImpactFuel, hv, if_false]
      congr 1
      rw [← Finset.sum_attach ((lookupNode g f).called_by)
        (fun c => getImpactFuel fuel g c (insert f visited))]
      apply Finset.sum_congr rfl
      intro c _
      apply ih
      have hf : f ∈ keysFinset g := mem_keys_of_called_by c.2
      have hsub : keysFinset g \ insert f visited ⊆ keysFinset g \ visited :=
        Finset.sdiff_subset_sdiff (le_refl _) (Finset.subset_insert f visited)
      have hmemf : f ∈ keysFinset g \ visited := Finset.mem_sdiff.mpr ⟨hf, hv⟩
      have hnm : f ∉ keysFinset g \ insert f visited := by
        simp [Finset.mem_sdiff]
      have hlt : (keysFinset g \ insert f visited).card < (keysFinset g \ visited).card :=
        Finset.card_lt_card ⟨hsub, fun hrev => hnm (hrev hmemf)⟩
      omega

/-- The linear chain `A` calls `B`, `B` calls `C` (no other edges). -/
def chainGraph : CallGraph :=
  addCall (addCall emptyCallGraph "A" "B") "B" "C"

/-- The two-node cycle `A` calls `B`, `B` calls `A`. -/
def cycleGraph : CallGraph :=
  addCall (addCall emptyCallGraph "A" "B") "B" "A"

example : getImpactFuel 5 chainGraph "C" ∅ = 2 := by decide
example : getImpactFuel 5 cycleGraph "A" ∅ = 2 := by decide

/-- C1: `get_impact` with no visited set equals the path-counting reference
definition (sum over immediate callers of `1 +` the caller's impact computed
with the current function in the visited set, a visited caller's recursive
impact contributing 0); consequently a function with zero callers has
impact 0, and in the linear chain `A` calls `B` calls `C` the impacts are
`impact(C) = 2`, `impact(B) = 1`, `impact(A) = 0`. -/
theorem impact_matches_path_counting_ref :
    (∀ (g : CallGraph) (f : String) (visited : Finset String),
        getImpact g f visited = impactRef g f visited) ∧
    (∀ (g : CallGraph) (f : String),
        (lookupNode g f).called_by = ∅ → getImpact g f ∅ = 0) ∧
    getImpact chainGraph "C" ∅ = 2 ∧
    getImpact chainGraph "B" ∅ = 1 ∧
    getImpact chainGraph "A" ∅ = 0 := by
  refine ⟨getImpact_eq_impactRef, ?_, ?_, ?_, ?_⟩
  · intro g f h
    rw [getImpact]
    simp [h]
  · rw [← getImpactFuel_eq 5 chainGraph "C" ∅ (by decide)]; decide
  · rw [← getImpactFuel_eq 5 chainGraph "B" ∅ (by decide)]; decide
  · rw [← getImpactFuel_eq 5 chainGraph "A" ∅ (by decide)]; decide

/-- Witness for `impact_matches_path_counting_ref`: the zero-caller clause
instantiated at node `A` of the concrete chain graph. -/
theorem impact_matches_path_counting_ref_witness :
    (lookupNode chainGraph "A").called_by = ∅ ∧ getImpact chainGraph "A" ∅ = 0 :=
  ⟨by decide, impact_matches_path_counting_ref.2.1 chainGraph "A" (by decide)⟩

/-- C5: for every finite call graph the `get_impact` recursion terminates —
the fuel-bounded unfolding stabilizes to `getImpact` (a total function into
`ℕ`, hence finite and non-negative) as soon as the fuel exceeds the number of
unvisited keys — and on the two-node cycle `A` ↔ `B` both nodes get the
finite impact 2. -/
theorem get_impact_terminates :
    (∀ (g : CallGraph) (f : String) (visited : Finset String) (fuel : Nat),
        (keysFinset g \ visited).card < fuel →
        getImpactFuel fuel g f visited = getImpact g f visited) ∧
    getImpact cycleGraph "A" ∅ = 2 ∧
    getImpact cycleGraph "B" ∅ = 2 := by
  refine ⟨fun g f visited fuel h => getImpactFuel_eq fuel g f visited h, ?_, ?_⟩
  · rw [← getImpactFuel_eq 5 cycleGraph "A" ∅ (by decide)]; decide
  · rw [← getImpactFuel_eq 5 cycleGraph "B" ∅ (by decide)]; decide

/-- Witness for `get_impact_terminates`: stabilization instantiated on the
concrete cycle graph. -/
theorem get_impact_terminates_witness :
    getImpactFuel 5 cycleGraph "A" ∅ = getImpact cycleGraph "A" ∅ :=
  get_impact_terminates.1 cycleGraph "A" ∅ 5 (by decide)

/-- `CallGraph.get_impact` with the `defaultdict` materialization side effect
made explicit: the function threads the graph state, and every
`self.graph[name]` access materializes `name` (`touchKey`).  Recursion depth
is bounded by explicit fuel; any positive fuel suffices for the scenarios
proved below. -/
def getImpactRun : Nat → CallGraph → String → Finset String → Nat × CallGraph
  | 0, g, _, _ => (0, g)
  | Nat.succ fuel, g, f, visited =>
    if f ∈ visited then (0, g)
    else
      let g1 := touchKey g f
      let cb := (lookupNode g1 f).called_by
      let res := (sortedList cb).foldl
        (fun (acc : Nat × CallGraph) c =>
          let r := getImpactRun fuel acc.2 c (insert f visited)
          (acc.1 + r.1, r.2)) (0, g1)
      (cb.card + res.1, res.2)

/-- C10: calling `get_impact` on a name that was never registered and never
referenced does not raise: it returns 0, and the `defaultdict` lookup
inserts a fresh node for that name (file `None`, line `None`, empty
`calls`/`called_by`). -/
theorem get_impact_unknown_name (g : CallGraph) (f : String) (fuel : Nat)
    (hf : f ∉ g.keys) (hfuel : 1 ≤ fuel) :
    getImpactRun fuel g f ∅ = (0, touchKey g f) ∧
    f ∈ (touchKey g f).keys ∧
    lookupNode (touchKey g f) f = defaultNode := by
  have hdef : lookupNode g f = defaultNode := by rw [lookupNode, if_neg hf]
  have h1 : (lookupNode (touchKey g f) f).called_by = ∅ := by
    rw [lookupNode_touchKey, hdef]
    rfl
  refine ⟨?_, ?_, ?_⟩
  · obtain ⟨n, rfl⟩ : ∃ n, fuel = n + 1 := ⟨fuel - 1, by omega⟩
    simp only [getImpactRun, Finset.not_mem_empty, if_false, h1]
    simp [sortedList_empty]
  · show f ∈ insertKey g.keys f
    exact mem_insertKey.mpr (Or.inl rfl)
  · rw [lookupNode_touchKey]
    exact hdef

/-- Witness for `get_impact_unknown_name`: querying the unregistered name
`"Z"` on the concrete chain graph. -/
theorem get_impact_unknown_name_witness :
    getImpactRun 1 chainGraph "Z" ∅ = (0, touchKey chainGraph "Z") ∧
    "Z" ∈ (touchKey chainGraph "Z").keys ∧
    lookupNode (touchKey chainGraph "Z") "Z" = defaultNode :=
  get_impact_unknown_name chainGraph "Z" 1 (by decide) (by decide)

/-! ### Method call resolution (`call_graph.py` lines 44-159) -/

/-- Python `pat in s` (substring test), for non-empty `pat`:
`pat` occurs in `s` iff splitting on it produces more than one piece. -/
def strContains (s pat : String) : Bool := (pySplit s pat).length != 1

/-- Python `s.split(".")[-1]`. -/
def lastSeg (s : String) : String := (pySplit s ".").getLastD ""

/-- Python `s.split(".", 1)[1]` (for `s` containing a dot). -/
def afterFirstDot (s : String) : String :=
  String.intercalate "." (pySplit s ".").tail

/-- Python truthiness of an optional string (`None` and `""` are falsy). -/
def optTruthy : Option String → Bool
  | none => false
  | some s => s != ""

/-- `class_methods[key].append(v)` on a `defaultdict(list)`. -/
def assocAppend (l : List (String × List String)) (k v : String) :
    List (String × List String) :=
  match l with
  | [] => [(k, [v])]
  | (k1, vs) :: rest =>
    if k1 = k then (k1, vs ++ [v]) :: rest else (k1, vs) :: assocAppend rest k v

/-- `CallGraph._build_class_methods_mapping` (`call_graph.py` lines 44-61):
for every node with a truthy `class_name` whose key contains `"::"` and
`"."`, append the key to the bucket `f"{class_name}.{method_name}"` where
`method_name = full_name.split(".")[-1]`. -/
def buildClassMethods (g : CallGraph) : List (String × List String) :=
  g.keys.foldl (fun acc full_name =>
    match (lookupNode g full_name).class_name with
    | some cn =>
      if (cn != "") && strContains full_name "::" && strContains full_name "." then
        assocAppend acc (cn ++ "." ++ lastSeg full_name) full_name
      else acc
    | none => acc) []

/-- `CallGraph._find_method_matches` (`call_graph.py` lines 98-114):
collect all buckets whose key's part after the first `"."` equals
`method_name`. -/
def findMethodMatches (method_name : String)
    (class_methods : List (String × List String)) : List String :=
  class_methods.foldl (fun acc p =>
    if afterFirstDot p.1 = method_name then acc ++ p.2 else acc) []

/-- `CallGraph._resolve_method_call` (`call_graph.py` lines 63-96):
returns `(calls_to_add, calls_to_remove)`. -/
def resolveMethodCall (call : String)
    (class_methods : List (String × List String)) : List String × List String :=
  if !(strContains call ".") then ([], [])
  else
    let parts := pySplit call "."
    if parts.length = 2 then
      let ms := findMethodMatches (parts.getD 1 "") class_methods
      if ms.isEmpty then ([], []) else (ms, [call])
    else if parts.length = 3 then
      let ms := findMethodMatches (parts.getLastD "") class_methods
      if ms.isEmpty then ([], []) else (ms, [call])
    else ([], [])

/-- One removal step of `CallGraph._update_calls_for_caller`
(`call_graph.py` lines 127-131): discard `c` from the caller's `calls`, and,
if `c` is a present key, discard the caller from `c`'s `called_by`. -/
def removeCallEdge (g : CallGraph) (caller c : String) : CallGraph :=
  let g1 := setNode g caller
    { lookupNode g caller with calls := (lookupNode g caller).calls.erase c }
  if c ∈ g1.keys then
    setNode g1 c
      { lookupNode g1 c with called_by := (lookupNode g1 c).called_by.erase caller }
  else g1

/-- `CallGraph._update_calls_for_caller` (`call_graph.py` lines 116-135):
all removals first, then all additions (an addition step is literally
`add_call`). -/
def updateCallsForCaller (g : CallGraph) (caller : String)
    (calls_to_add calls_to_remove : List String) : CallGraph :=
  let g1 := calls_to_remove.foldl (fun h c => removeCallEdge h caller c) g
  calls_to_add.foldl (fun h c => addCall h caller c) g1

/-- `CallGraph.resolve_method_calls` (`call_graph.py` lines 137-159). -/
def resolveMethodCalls (g : CallGraph) : CallGraph :=
  let class_methods := buildClassMethods g
  g.keys.foldl (fun gacc caller_name =>
    let scan := (sortedList (lookupNode gacc caller_name).calls).foldl
      (fun (acc : List String × List String) call =>
        let r := resolveMethodCall call class_methods
        (acc.1 ++ r.1, acc.2 ++ r.2)) ([], [])
    if scan.1 = [] ∧ scan.2 = [] then gacc
    else updateCallsForCaller gacc caller_name scan.1 scan.2) g

/-! ### Edge symmetry (C4) -/

/-- The symmetry invariant: an edge is in `calls[a]` iff its converse is in
`called_by[b]` (globally — reads outside the key set see empty sets). -/
def EdgeSymm (g : CallGraph) : Prop :=
  ∀ a b : String, b ∈ (lookupNode g a).calls ↔ a ∈ (lookupNode g b).called_by

theorem edgeSymm_empty : EdgeSymm emptyCallGraph := by
  intro a b
  simp [lookupNode, emptyCallGraph, defaultNode]

/-- `addFunction` changes no edge sets. -/
theorem calls_addFunction (g : CallGraph) (n fp : String) (ln : Nat) (m : Bool)
    (cn : Option String) (j : String) :
    (lookupNode (addFunction g n fp ln m cn) j).calls = (lookupNode g j).calls := by
  unfold addFunction
  rw [lookupNode_setNode]
  by_cases h : j = n
  · subst h; simp
  · simp [h]

theorem called_by_addFunction (g : CallGraph) (n fp : String) (ln : Nat) (m : Bool)
    (cn : Option String) (j : String) :
    (lookupNode (addFunction g n fp ln m cn) j).called_by = (lookupNode g j).called_by := by
  unfold addFunction
  rw [lookupNode_setNode]
  by_cases h : j = n
  · subst h; simp
  · simp [h]

theorem edgeSymm_addFunction {g : CallGraph} (h : EdgeSymm g) (n fp : String)
    (ln : Nat) (m : Bool) (cn : Option String) : EdgeSymm (addFunction g n fp ln m cn) := by
  intro a b
  rw [calls_addFunction, called_by_addFunction]
  exact h a b

theorem edgeSymm_addCall {g : CallGraph} (h : EdgeSymm g) (x y : String) :
    EdgeSymm (addCall g x y) := by
  intro a b
  rw [calls_addCall, called_by_addCall]
  by_cases hax : a = x
  · subst hax
    by_cases hby : b = y
    · subst hby; simp
    · simp only [if_true, hby, if_false, Finset.mem_insert, hby, false_or]
      exact h a b
  · simp only [hax, if_false]
    by_cases hby : b = y
    · subst hby
      simp only [if_true, Finset.mem_insert, hax, false_or]
      exact h a b
    · simp only [hby, if_false]
      exact h a b

theorem insertKey_of_mem {ks : List String} {k : String} (h : k ∈ ks) :
    insertKey ks k = ks := by
  unfold insertKey
  simp [h]

theorem keys_removeCallEdge (g : CallGraph) (caller c : String) :
    (removeCallEdge g caller c).keys = insertKey g.keys caller := by
  rw [removeCallEdge]
  split
  · next h =>
    rw [keys_setNode, keys_setNode, insertKey_of_mem]
    exact h
  · rw [keys_setNode]

theorem calls_removeCallEdge (g : CallGraph) (caller c j : String) :
    (lookupNode (removeCallEdge g caller c) j).calls =
      if j = caller then (lookupNode g caller).calls.erase c
      else (lookupNode g j).calls := by
  unfold removeCallEdge
  by_cases h : c ∈ (setNode g caller
      { lookupNode g caller with calls := (lookupNode g caller).calls.erase c }).keys
  · simp only [h, if_true]
    simp only [lookupNode_setNode]
    by_cases hjc : j = c
    · subst hjc
      by_cases hjx : j = caller
      · subst hjx; simp
      · simp [hjx]
    · simp only [hjc, if_false]
      by_cases hjx : j = caller
      · subst hjx; simp
      · simp [hjx]
  · simp only [h, if_false]
    simp only [lookupNode_setNode]
    by_cases hjx : j = caller
    · subst hjx; simp
    · simp [hjx]

theorem called_by_removeCallEdge (g : CallGraph) (caller c j : String) :
    (lookupNode (removeCallEdge g caller c) j).called_by =
      if j = c ∧ (c = caller ∨ c ∈ g.keys) then
        (lookupNode g c).called_by.erase caller
      else (lookupNode g j).called_by := by
  unfold removeCallEdge
  have hkeys : (setNode g caller
      { lookupNode g caller with calls := (lookupNode g caller).calls.erase c }).keys
      = insertKey g.keys caller := rfl
  by_cases h : c ∈ (setNode g caller
      { lookupNode g caller with calls := (lookupNode g caller).calls.erase c }).keys
  · have hc : c = caller ∨ c ∈ g.keys := by
      rw [hkeys] at h; exact mem_insertKey.mp h
    simp only [h, if_true]
    simp only [lookupNode_setNode]
    by_cases hjc : j = c
    · subst hjc
      simp only [if_true, hc, and_true]
      by_cases hjx : j = caller
      · subst hjx; simp
      · simp [hjx]
    · simp only [hjc, if_false, false_and, if_false]
      by_cases hjx : j = caller
      · subst hjx; simp
      · simp [hjx]
  · have hc : ¬(c = caller ∨ c ∈ g.keys) := by
      rw [hkeys] at h
      intro hor
      exact h (mem_insertKey.mpr hor)
    simp only [h, if_false, hc, and_false, if_false]
    simp only [lookupNode_setNode]
    by_cases hjx : j = caller
    · subst hjx; simp
    · simp [hjx]

theorem edgeSymm_removeCallEdge {g : CallGraph} (h : EdgeSymm g) (x c : String) :
    EdgeSymm (removeCallEdge g x c) := by
  intro a b
  rw [calls_removeCallEdge, called_by_removeCallEdge]
  by_cases hkey : c = x ∨ c ∈ g.keys
  · by_cases hbc : b = c
    · by_cases hax : a = x
      · rw [if_pos hax, if_pos ⟨hbc, hkey⟩, hbc, hax]
        simp
      · rw [if_neg hax, if_pos ⟨hbc, hkey⟩, hbc, Finset.mem_erase]
        constructor
        · intro hm
          exact ⟨hax, (h a c).mp hm⟩
        · intro hm
          exact (h a c).mpr hm.2
    · rw [if_neg (fun hcon : b = c ∧ _ => hbc hcon.1)]
      by_cases hax : a = x
      · rw [if_pos hax, hax, Finset.mem_erase]
        constructor
        · intro hm
          exact (h x b).mp hm.2
        · intro hm
          exact ⟨hbc, (h x b).mpr hm⟩
      · rw [if_neg hax]
        exact h a b
  · have hnc : c ∉ (lookupNode g x).calls := by
      intro hcm
      have hmem := (h x c).mp hcm
      have hck : c ∈ keysFinset g := mem_keys_of_called_by hmem
      exact hkey (Or.inr (mem_keysFinset.mp hck))
    rw [if_neg (fun hcon : _ ∧ (c = x ∨ c ∈ g.keys) => hkey hcon.2)]
    by_cases hax : a = x
    · rw [if_pos hax, Finset.erase_eq_of_not_mem hnc, hax]
      exact h x b
    · rw [if_neg hax]
      exact h a b

/-- Folding a symmetry-preserving step preserves symmetry. -/
theorem edgeSymm_foldl {α : Type} (step : CallGraph → α → CallGraph)
    (hstep : ∀ g a, EdgeSymm g → EdgeSymm (step g a)) :
    ∀ (l : List α) (g : CallGraph), EdgeSymm g → EdgeSymm (l.foldl step g) := by
  intro l
  induction l with
  | nil => intro g hg; exact hg
  | cons a rest ih => intro g hg; exact ih (step g a) (hstep g a hg)

theorem edgeSymm_updateCallsForCaller {g : CallGraph} (h : EdgeSymm g)
    (caller : String) (toAdd toRemove : List String) :
    EdgeSymm (updateCallsForCaller g caller toAdd toRemove) := by
  unfold updateCallsForCaller
  apply edgeSymm_foldl (fun h c => addCall h caller c)
    (fun g a hg => edgeSymm_addCall hg caller a)
  apply edgeSymm_foldl (fun h c => removeCallEdge h caller c)
    (fun g a hg => edgeSymm_removeCallEdge hg caller a)
  exact h

theorem edgeSymm_resolveMethodCalls {g : CallGraph} (h : EdgeSymm g) :
    EdgeSymm (resolveMethodCalls g) := by
  unfold resolveMethodCalls
  refine edgeSymm_foldl _ ?_ g.keys g h
  intro gacc caller hg
  dsimp only
  split
  · exact hg
  · exact edgeSymm_updateCallsForCaller hg caller _ _

/-- The graphs reachable by the public mutators `add_function`, `add_call`
and `resolve_method_calls` from a fresh `CallGraph()`. -/
inductive Built : CallGraph → Prop
  | empty : Built emptyCallGraph
  | add_fn {g : CallGraph} (full_name file_path : String) (line : Nat)
      (m : Bool) (cn : Option String) :
      Built g → Built (addFunction g full_name file_path line m cn)
  | add_call {g : CallGraph} (a b : String) : Built g → Built (addCall g a b)
  | resolve {g : CallGraph} : Built g → Built (resolveMethodCalls g)

theorem built_edgeSymm {g : CallGraph} (hg : Built g) : EdgeSymm g := by
  induction hg with
  | empty => exact edgeSymm_empty
  | add_fn full_name file_path line m cn _ ih =>
    exact edgeSymm_addFunction ih full_name file_path line m cn
  | add_call a b _ ih => exact edgeSymm_addCall ih a b
  | resolve _ ih => exact edgeSymm_resolveMethodCalls ih

/-- C4: after any sequence of `add_function`, `add_call` and
`resolve_method_calls` operations, the edge sets are symmetric: for every
pair of present keys `a`, `b`, `b ∈ calls[a]` iff `a ∈ called_by[b]`. -/
theorem calls_called_by_symmetric (g : CallGraph) (hg : Built g)
    (a b : String) (_ha : a ∈ g.keys) (_hb : b ∈ g.keys) :
    b ∈ (lookupNode g a).calls ↔ a ∈ (lookupNode g b).called_by :=
  built_edgeSymm hg a b

/-- Witness for `calls_called_by_symmetric`: the graph built by a single
`add_call` on a fresh graph. -/
theorem calls_called_by_symmetric_witness :
    "b" ∈ (lookupNode (addCall emptyCallGraph "a" "b") "a").calls ↔
      "a" ∈ (lookupNode (addCall emptyCallGraph "a" "b") "b").called_by :=
  calls_called_by_symmetric (addCall emptyCallGraph "a" "b")
    (Built.add_call "a" "b" Built.empty) "a" "b" (by decide) (by decide)

/-! ### AST visitors (`call_graph.py` lines 195-225 and 288-342)

The parser is an external collaborator (spec §1): the embedding starts from
parsed trees.  `PExpr`/`PStmt` model the expression and statement shapes the
visitors inspect: names, attribute accesses, calls, expression statements,
and function/class definitions.  Other shapes contribute nothing to either
visitor and are omitted. -/

inductive PExpr where
  | name (id : String)
  | attr (value : PExpr) (attrName : String)
  | call (func : PExpr) (args : List PExpr)

inductive PStmt where
  | funcDef (fname : String) (lineno : Nat) (body : List PStmt)
  | classDef (cname : String) (body : List PStmt)
  | exprStmt (e : PExpr)

/-- `CallGraphVisitor._get_attribute_chain` (`call_graph.py` lines 218-225),
applied to the attribute node with base `value` and attribute `attrName`.
The Python `f"{parent}.{node.attr}" if parent else None` truthiness test is
modelled by the emptiness check. -/
def getAttributeChain : PExpr → String → Option String
  | .name vid, a => some (vid ++ "." ++ a)
  | .attr v2 a2, a =>
    match getAttributeChain v2 a2 with
    | some parent => if parent != "" then some (parent ++ "." ++ a) else none
    | none => none
  | _, _ => none

mutual

/-- `CallGraphVisitor.visit_Call` together with `generic_visit`
(`call_graph.py` lines 195-216): the call strings collected from an
expression tree, in visit order.  The Python accumulator is a `set`; the
graph only ever inserts these strings into `Finset`s, so list duplicates
are immaterial. -/
def collectCallsExpr : PExpr → List String
  | .name _ => []
  | .attr v _ => collectCallsExpr v
  | .call f args =>
    (match f with
     | .name id => [id]
     | .attr (.name vid) a => [vid ++ "." ++ a]
     | .attr (.attr v2 a2) a =>
       match getAttributeChain v2 a2 with
       | some chain => if chain != "" then [chain ++ "." ++ a] else []
       | none => []
     | _ => []) ++ collectCallsExpr f ++ collectCallsExprList args
/-- Call collection over an argument list (visit order). -/
def collectCallsExprList : List PExpr → List String
  | [] => []
  | e :: rest => collectCallsExpr e ++ collectCallsExprList rest

end

mutual

/-- `CallGraphVisitor` run on a statement: `generic_visit` descends into
every child, including the bodies of nested `FunctionDef` and `ClassDef`
nodes (the visitor defines no `visit_FunctionDef`). -/
def collectCallsStmt : PStmt → List String
  | .funcDef _ _ body => collectCallsStmtList body
  | .classDef _ body => collectCallsStmtList body
  | .exprStmt e => collectCallsExpr e
/-- Call collection over a statement list. -/
def collectCallsStmtList : List PStmt → List String
  | [] => []
  | s :: rest => collectCallsStmt s ++ collectCallsStmtList rest

end

/-- The dunder test of `visit_FunctionDef` (`call_graph.py` line 318):
`func_name.startswith("__") and func_name.endswith("__")`. -/
def isDunder (s : String) : Bool :=
  charsStartsWith s.toList ['_', '_'] && charsStartsWith s.toList.reverse ['_', '_']

/-- The full-name construction of `visit_FunctionDef`
(`call_graph.py` lines 307-315), including the Python truthiness of
`self.current_class`. -/
def mkFullName (file : String) (cls : Option String) (fname : String) : String :=
  if optTruthy cls then file ++ "::" ++ cls.getD "" ++ "." ++ fname
  else file ++ "::" ++ fname

mutual

/-- `FunctionVisitor.visit_FunctionDef` / `visit_ClassDef` / `generic_visit`
(`call_graph.py` lines 288-342), with the mutable `current_class` field as a
threaded context value (`cls`):
* a class definition sets the current class for its body and restores it;
* a dunder-named function is not registered, but `generic_visit` still
  descends into its body;
* otherwise the function is registered (`add_function`), all call strings
  collected from its entire body — nested definitions included — are added
  as outgoing edges (`add_call`), and `generic_visit` then descends into the
  body (where nested definitions are registered in turn). -/
def visitStmt (file : String) (cls : Option String) (g : CallGraph) :
    PStmt → CallGraph
  | .classDef cname body => visitStmtList file (some cname) g body
  | .exprStmt _ => g
  | .funcDef fname line body =>
    if isDunder fname then visitStmtList file cls g body
    else
      let truthy := optTruthy cls
      let full_name := mkFullName file cls fname
      let g1 := addFunction g full_name file line truthy (if truthy then cls else none)
      let g2 := (collectCallsStmtList body).foldl
        (fun gg c => addCall gg full_name c) g1
      visitStmtList file cls g2 body
/-- The visitor folded over a statement list. -/
def visitStmtList (file : String) (cls : Option String) (g : CallGraph) :
    List PStmt → CallGraph
  | [] => g
  | s :: rest => visitStmtList file cls (visitStmt file cls g s) rest

end

/-- `build_call_graph` (`call_graph.py` lines 261-351) with file discovery,
reading and parse-error skipping abstracted away: the input is the list of
successfully parsed, package-prefix-retained modules as pairs
`(relative path, body)`.  Each module is visited from module scope
(`current_class = None`), then method calls are resolved once. -/
def buildCallGraph (modules : List (String × List PStmt)) : CallGraph :=
  resolveMethodCalls
    (modules.foldl (fun g m => visitStmtList m.1 none g m.2) emptyCallGraph)

/-! ### Call graph construction facts (C2, C3) -/

theorem lookupNode_empty (x : String) : lookupNode emptyCallGraph x = defaultNode := rfl

theorem calls_emptyCallGraph (k : String) :
    (lookupNode emptyCallGraph k).calls = ∅ := rfl

theorem mem_sortedList {s : Finset String} {c : String} : c ∈ sortedList s ↔ c ∈ s := by
  rcases s with ⟨val, nodup⟩
  induction val using Quotient.inductionOn with
  | h l =>
    show c ∈ l.insertionSort strLeR ↔ _
    rw [(l.perm_insertionSort strLeR).mem_iff]
    rfl

/-- A dot-free callee string is never resolved. -/
theorem resolveMethodCall_no_dot {c : String} (h : strContains c "." = false)
    (cm : List (String × List String)) : resolveMethodCall c cm = ([], []) := by
  simp [resolveMethodCall, h]

theorem scan_no_dot (cm : List (String × List String)) :
    ∀ (l : List String) (a b : List String),
      (∀ c ∈ l, strContains c "." = false) →
      l.foldl (fun (acc : List String × List String) call =>
        let r := resolveMethodCall call cm
        (acc.1 ++ r.1, acc.2 ++ r.2)) (a, b) = (a, b) := by
  intro l
  induction l with
  | nil => intro a b _; rfl
  | cons c rest ih =>
    intro a b h
    have hc := h c (List.mem_cons_self c rest)
    simp only [List.foldl_cons, resolveMethodCall_no_dot hc]
    simpa using ih a b (fun x hx => h x (List.mem_cons_of_mem c hx))

theorem foldl_resolve_step_id (cm : List (String × List String)) (g : CallGraph)
    (h : ∀ k, ∀ c ∈ (lookupNode g k).calls, strContains c "." = false) :
    ∀ ks : List String, ks.foldl (fun gacc caller_name =>
        let scan := (sortedList (lookupNode gacc caller_name).calls).foldl
          (fun (acc : List String × List String) call =>
            let r := resolveMethodCall call cm
            (acc.1 ++ r.1, acc.2 ++ r.2)) ([], [])
        if scan.1 = [] ∧ scan.2 = [] then gacc
        else updateCallsForCaller gacc caller_name scan.1 scan.2) g = g := by
  intro ks
  induction ks with
  | nil => rfl
  | cons caller rest ih =>
    simp only [List.foldl_cons]
    have hscan : (sortedList (lookupNode g caller).calls).foldl
        (fun (acc : List String × List String) call =>
          let r := resolveMethodCall call cm
          (acc.1 ++ r.1, acc.2 ++ r.2)) ([], []) = ([], []) := by
      apply scan_no_dot
      intro c hc
      exact h caller c (mem_sortedList.mp hc)
    rw [hscan]
    simpa using ih

/-- On a graph all of whose recorded callee strings are dot-free,
`resolve_method_calls` is the identity. -/
theorem resolveMethodCalls_id (g : CallGraph)
    (h : ∀ k, ∀ c ∈ (lookupNode g k).calls, strContains c "." = false) :
    resolveMethodCalls g = g := by
  unfold resolveMethodCalls
  exact foldl_resolve_step_id (buildClassMethods g) g h g.keys

/-- C2 (amended): a call appearing inside a nested function body is
attributed to the nested function's key AND to the enclosing function's key:
the call collector scans the entire lexical body of a function, nested
definitions included. -/
theorem nested_call_attributed_to_both (file outer inner target : String)
    (l1 l2 : Nat) (ho : isDunder outer = false) (hi : isDunder inner = false)
    (ht : strContains target "." = false) :
    target ∈ (lookupNode (buildCallGraph
      [(file, [PStmt.funcDef outer l1 [PStmt.funcDef inner l2
        [PStmt.exprStmt (PExpr.call (PExpr.name target) [])]]])])
      (mkFullName file none outer)).calls ∧
    target ∈ (lookupNode (buildCallGraph
      [(file, [PStmt.funcDef outer l1 [PStmt.funcDef inner l2
        [PStmt.exprStmt (PExpr.call (PExpr.name target) [])]]])])
      (mkFullName file none inner)).calls := by
  have hpre : buildCallGraph
      [(file, [PStmt.funcDef outer l1 [PStmt.funcDef inner l2
        [PStmt.exprStmt (PExpr.call (PExpr.name target) [])]]])] =
      resolveMethodCalls
        (addCall
          (addFunction
            (addCall (addFunction emptyCallGraph (mkFullName file none outer) file l1 false none)
              (mkFullName file none outer) target)
            (mkFullName file none inner) file l2 false none)
          (mkFullName file none inner) target) := by
    simp [buildCallGraph, visitStmtList, visitStmt, ho, hi, collectCallsStmtList,
      collectCallsStmt, collectCallsExpr, collectCallsExprList, optTruthy, mkFullName]
  have hallcalls : ∀ k, ∀ c ∈ (lookupNode
      (addCall
        (addFunction
          (addCall (addFunction emptyCallGraph (mkFullName file none outer) file l1 false none)
            (mkFullName file none outer) target)
          (mkFullName file none inner) file l2 false none)
        (mkFullName file none inner) target) k).calls,
      strContains c "." = false := by
    intro k c hc
    have hct : c = target := by
      simp only [calls_addCall, calls_addFunction, calls_emptyCallGraph] at hc
      split_ifs at hc <;> simp [Finset.mem_insert] at hc <;> tauto
    rw [hct]
    exact ht
  rw [hpre, resolveMethodCalls_id _ hallcalls]
  constructor
  · rw [calls_addCall]
    by_cases h12 : mkFullName file none outer = mkFullName file none inner
    · rw [if_pos h12]
      exact Finset.mem_insert_self _ _
    · rw [if_neg h12, calls_addFunction, calls_addCall, if_pos rfl]
      exact Finset.mem_insert_self _ _
  · rw [calls_addCall, if_pos rfl]
    exact Finset.mem_insert_self _ _

/-- Witness for `nested_call_attributed_to_both` at concrete names. -/
theorem nested_call_attributed_to_both_witness :
    "target" ∈ (lookupNode (buildCallGraph
      [("f.py", [PStmt.funcDef "outer" 1 [PStmt.funcDef "inner" 2
        [PStmt.exprStmt (PExpr.call (PExpr.name "target") [])]]])])
      (mkFullName "f.py" none "outer")).calls ∧
    "target" ∈ (lookupNode (buildCallGraph
      [("f.py", [PStmt.funcDef "outer" 1 [PStmt.funcDef "inner" 2
        [PStmt.exprStmt (PExpr.call (PExpr.name "target") [])]]])])
      (mkFullName "f.py" none "inner")).calls :=
  nested_call_attributed_to_both "f.py" "outer" "inner" "target" 1 2
    (by decide) (by decide) (by decide)

/-- Counterexample to C2 as stated: the claim says a call inside a nested
function body is never attributed to the enclosing outer function's key,
but in the built graph the outer function's node does carry the edge. -/
theorem nested_call_outer_attribution_counterexample :
    "target" ∈ (lookupNode (buildCallGraph
      [("f.py", [PStmt.funcDef "outer" 1 [PStmt.funcDef "inner" 2
        [PStmt.exprStmt (PExpr.call (PExpr.name "target") [])]]])])
      "f.py::outer").calls := by decide

theorem file_addFunction (g : CallGraph) (n fp : String) (ln : Nat) (m : Bool)
    (cn : Option String) (j : String) :
    (lookupNode (addFunction g n fp ln m cn) j).file =
      if j = n then some fp else (lookupNode g j).file := by
  unfold addFunction
  rw [lookupNode_setNode]
  by_cases h : j = n
  · subst h; simp
  · simp [h]

theorem file_removeCallEdge (g : CallGraph) (x c j : String) :
    (lookupNode (removeCallEdge g x c) j).file = (lookupNode g j).file := by
  rw [removeCallEdge]
  split
  · simp only [lookupNode_setNode]
    by_cases hjc : j = c
    · subst hjc
      by_cases hjx : j = x
      · subst hjx; simp
      · simp [hjx]
    · simp only [hjc, if_false]
      by_cases hjx : j = x
      · subst hjx; simp
      · simp [hjx]
  · simp only [lookupNode_setNode]
    by_cases hjx : j = x
    · subst hjx; simp
    · simp [hjx]

/-- Folding a step that fixes every node's `file` field fixes it overall. -/
theorem foldl_file_invariant {α : Type} (step : CallGraph → α → CallGraph)
    (hstep : ∀ g a j, (lookupNode (step g a) j).file = (lookupNode g j).file) :
    ∀ (l : List α) (g : CallGraph) (j : String),
      (lookupNode (l.foldl step g) j).file = (lookupNode g j).file := by
  intro l
  induction l with
  | nil => intro g j; rfl
  | cons a rest ih =>
    intro g j
    rw [List.foldl_cons, ih, hstep]

theorem file_updateCallsForCaller (g : CallGraph) (caller : String)
    (toAdd toRemove : List String) (j : String) :
    (lookupNode (updateCallsForCaller g caller toAdd toRemove) j).file =
      (lookupNode g j).file := by
  unfold updateCallsForCaller
  rw [foldl_file_invariant _ (fun g a j => (meta_addCall g caller a j).1),
    foldl_file_invariant _ (fun g a j => file_removeCallEdge g caller a j)]

theorem file_resolveMethodCalls (g : CallGraph) (j : String) :
    (lookupNode (resolveMethodCalls g) j).file = (lookupNode g j).file := by
  unfold resolveMethodCalls
  apply foldl_file_invariant
  intro gacc caller j2
  dsimp only
  split
  · rfl
  · exact file_updateCallsForCaller gacc caller _ _ j2

/-- The bare function/method name a key denotes under the key grammar
`{file}::{fname}` / `{file}::{cls}.{fname}`: the text after the last
`"::"`, then after the last `"."`. -/
def keyBareName (k : String) : String :=
  lastSeg ((pySplit k "::").getLastD "")

mutual

/-- Wellformedness of a module for name extraction, mirroring the visitor's
class-context threading: for every function definition, extracting the bare
name back out of its constructed key recovers the function name.  This
holds for real Python sources, whose identifiers contain neither `"."` nor
`":"`. -/
def namesOkStmt (file : String) (cls : Option String) : PStmt → Bool
  | .funcDef fname _ body =>
    (keyBareName (mkFullName file cls fname) == fname) && namesOkStmts file cls body
  | .classDef cname body => namesOkStmts file (some cname) body
  | .exprStmt _ => true
/-- `namesOkStmt` over a statement list. -/
def namesOkStmts (file : String) (cls : Option String) : List PStmt → Bool
  | [] => true
  | s :: rest => namesOkStmt file cls s && namesOkStmts file cls rest

end

/-- Every node carrying a recorded definition (non-`None` `file`) is keyed
by a non-dunder bare function/method name. -/
def RegisteredNonDunder (g : CallGraph) : Prop :=
  ∀ k, (lookupNode g k).file ≠ none → isDunder (keyBareName k) = false

theorem regND_of_file_eq {g g2 : CallGraph}
    (hf : ∀ j, (lookupNode g2 j).file = (lookupNode g j).file)
    (h : RegisteredNonDunder g) : RegisteredNonDunder g2 := by
  intro k hk
  rw [hf k] at hk
  exact h k hk

theorem regND_empty : RegisteredNonDunder emptyCallGraph := by
  intro k hk
  exact absurd rfl hk

theorem regND_addFunction {g : CallGraph} (h : RegisteredNonDunder g)
    {file : String} {cls : Option String} {fname : String}
    (hnd : isDunder fname = false)
    (hok : keyBareName (mkFullName file cls fname) = fname)
    (fp : String) (ln : Nat) (m : Bool) (cn : Option String) :
    RegisteredNonDunder (addFunction g (mkFullName file cls fname) fp ln m cn) := by
  intro k hk
  rw [file_addFunction] at hk
  by_cases hkn : k = mkFullName file cls fname
  · rw [hkn, hok]
    exact hnd
  · rw [if_neg hkn] at hk
    exact h k hk

mutual

theorem regND_visitStmt (file : String) (cls : Option String) (g : CallGraph)
    (s : PStmt) (hok : namesOkStmt file cls s = true)
    (h : RegisteredNonDunder g) :
    RegisteredNonDunder (visitStmt file cls g s) := by
  cases s with
  | classDef cname body =>
    rw [visitStmt]
    exact regND_visitStmtList file (some cname) g body
      (by simpa [namesOkStmt] using hok) h
  | exprStmt e =>
    rw [visitStmt]
    exact h
  | funcDef fname line body =>
    rw [visitStmt]
    have hok2 : (keyBareName (mkFullName file cls fname) == fname) = true ∧
        namesOkStmts file cls body = true := by
      simpa [namesOkStmt, Bool.and_eq_true] using hok
    by_cases hd : isDunder fname = true
    · rw [if_pos hd]
      exact regND_visitStmtList file cls g body hok2.2 h
    · rw [if_neg hd]
      apply regND_visitStmtList file cls _ body hok2.2
      apply regND_of_file_eq
        (foldl_file_invariant _ (fun gg a j => (meta_addCall gg (mkFullName file cls fname) a j).1)
          (collectCallsStmtList body) _)
      exact regND_addFunction h (by simpa using hd) (by simpa using hok2.1)
        file line (optTruthy cls) (if optTruthy cls then cls else none)

theorem regND_visitStmtList (file : String) (cls : Option String) (g : CallGraph)
    (l : List PStmt) (hok : namesOkStmts file cls l = true)
    (h : RegisteredNonDunder g) :
    RegisteredNonDunder (visitStmtList file cls g l) := by
  cases l with
  | nil =>
    rw [visitStmtList]
    exact h
  | cons s rest =>
    rw [visitStmtList]
    have hok2 : namesOkStmt file cls s = true ∧
        namesOkStmts file cls rest = true := by
      simpa [namesOkStmts, Bool.and_eq_true] using hok
    exact regND_visitStmtList file cls _ rest hok2.2
      (regND_visitStmt file cls g s hok2.1 h)

end

/-- C3 (amended): no graph node registered as a definition (`file` field
set by `add_function`) is keyed by a dunder bare function/method name: the
text of its key after the last `"::"` and then after the last `"."` is
never both `"__"`-prefixed and `"__"`-suffixed.  In particular a dunder
method key such as `"f.py::C.__init__"` can never carry a recorded
definition.  Hypothesis: each module is wellformed for name extraction
(`namesOkStmts`, true of Python identifiers).  Dunder names merely
referenced at call sites can still appear as keys, refuting the original
claim — see the counterexample. -/
theorem registered_nodes_not_dunder (modules : List (String × List PStmt))
    (hwf : ∀ m ∈ modules, namesOkStmts m.1 none m.2 = true) (k : String)
    (h : (lookupNode (buildCallGraph modules) k).file ≠ none) :
    isDunder (keyBareName k) = false := by
  have hbase : ∀ (ms : List (String × List PStmt)),
      (∀ m ∈ ms, namesOkStmts m.1 none m.2 = true) →
      ∀ g, RegisteredNonDunder g →
      RegisteredNonDunder (ms.foldl (fun g m => visitStmtList m.1 none g m.2) g) := by
    intro ms
    induction ms with
    | nil =>
      intro _ g hg
      exact hg
    | cons m rest ih =>
      intro hms g hg
      rw [List.foldl_cons]
      exact ih (fun x hx => hms x (List.mem_cons_of_mem m hx)) _
        (regND_visitStmtList m.1 none g m.2 (hms m (List.mem_cons_self m rest)) hg)
  have hres : RegisteredNonDunder (buildCallGraph modules) := by
    unfold buildCallGraph
    exact regND_of_file_eq (fun j => file_resolveMethodCalls _ j)
      (hbase modules hwf emptyCallGraph regND_empty)
  exact hres k h

/-- Witness for `registered_nodes_not_dunder` at a registered method key:
class `C` defines method `m`, and the key `"f.py::C.m"` (whose `file` field
is set) has the non-dunder bare name `"m"`. -/
theorem registered_nodes_not_dunder_witness :
    isDunder (keyBareName "f.py::C.m") = false :=
  registered_nodes_not_dunder
    [("f.py", [PStmt.classDef "C" [PStmt.funcDef "m" 1 []]])]
    (by decide) "f.py::C.m" (by decide)

/-- Counterexample to C3 as stated: a bare call to `__import__` materializes
a dunder-named graph key even though no dunder function is ever defined. -/
theorem dunder_key_from_call_site_counterexample :
    "__import__" ∈ (buildCallGraph [("f.py", [PStmt.funcDef "g" 1
      [PStmt.exprStmt (PExpr.call (PExpr.name "__import__") [])]])]).keys := by decide

/-! ### Coverage joiner (`impact_calculator.py` lines 23-69)

Coverage data (spec §6) is the `files` mapping of `coverage.json`:
`files[path] = { summary: { num_statements, covered_lines },
executed_lines, missing_lines }`.  The `.get(..., 0)` / `.get(..., [])`
defaults of the source are modelled by always-present fields (a missing
JSON key behaves as the default value).  Floats are exact rationals. -/

structure FileSummary where
  num_statements : Nat
  covered_lines : Nat
deriving DecidableEq

structure FileCoverage where
  summary : FileSummary
  executed_lines : List Int
  missing_lines : List Int
deriving DecidableEq

/-- Python `files_data[key]` lookup (`key in files_data` guard included):
first matching association, if any.  Dict keys are unique, so first-match
equals dict lookup. -/
def lookupFileData : List (String × FileCoverage) → String → Option FileCoverage
  | [], _ => none
  | (k, v) :: rest, key => if k = key then some v else lookupFileData rest key

/-- The `file_keys` candidate list (`impact_calculator.py` lines 37-41),
including the Python truthiness of `package_prefix` (a `None` or empty
prefix falls back to the plain path). -/
def tryFileKeys (file_path : String) (pkg : Option String) : List String :=
  [file_path,
   if optTruthy pkg then pkg.getD "" ++ "/" ++ file_path else file_path,
   pyReplace file_path "\\" "/"]

/-- The per-file result (`impact_calculator.py` lines 47-66): definition
line covered?, file-level coverage ratio (0 when no statements), and the
count of missing lines within `[line_num, line_num + 50]`. -/
def fileCoverageResult (fd : FileCoverage) (line_num : Int) : Bool × ℚ × Nat :=
  let total_lines := fd.summary.num_statements
  let covered_lines := fd.summary.covered_lines
  let coverage_pct : ℚ :=
    if total_lines > 0 then (covered_lines : ℚ) / (total_lines : ℚ) else 0
  let is_covered := fd.executed_lines.contains line_num
  let function_missing := (fd.missing_lines.filter
    (fun l => decide (line_num ≤ l) && decide (l ≤ line_num + 50))).length
  (is_covered, coverage_pct, function_missing)

/-- The `for file_key in file_keys` loop: first key present in the data
wins; if none matches, `(False, 0.0, 0)`. -/
def coverageSearch (files : List (String × FileCoverage)) (line_num : Int) :
    List String → Bool × ℚ × Nat
  | [] => (false, 0, 0)
  | k :: rest =>
    match lookupFileData files k with
    | some fd => fileCoverageResult fd line_num
    | none => coverageSearch files line_num rest

/-- `ImpactCalculator.get_function_coverage` (`impact_calculator.py`
lines 23-69). -/
def getFunctionCoverage (files : List (String × FileCoverage))
    (file_path : String) (line_num : Int) (pkg : Option String) :
    Bool × ℚ × Nat :=
  coverageSearch files line_num (tryFileKeys file_path pkg)

/-- Modelled from the spec: the per-file triple in the claim's words —
`(line ∈ executed_lines, covered_lines / num_statements with 0.0 when
num_statements is 0, count of missing_lines entries within
[line, line+50])`. -/
def coverageTripleRef (fd : FileCoverage) (line_num : Int) : Bool × ℚ × Nat :=
  (fd.executed_lines.contains line_num,
   if fd.summary.num_statements = 0 then 0
   else (fd.summary.covered_lines : ℚ) / (fd.summary.num_statements : ℚ),
   (fd.missing_lines.filter
     (fun l => decide (line_num ≤ l) && decide (l ≤ line_num + 50))).length)

theorem fileCoverageResult_eq_ref (fd : FileCoverage) (line_num : Int) :
    fileCoverageResult fd line_num = coverageTripleRef fd line_num := by
  unfold fileCoverageResult coverageTripleRef
  by_cases h : fd.summary.num_statements = 0
  · simp [h]
  · simp [h, Nat.pos_of_ne_zero h]

theorem coverageSearch_eq_findSome (files : List (String × FileCoverage))
    (line_num : Int) :
    ∀ ks : List String, coverageSearch files line_num ks =
      match ks.findSome? (lookupFileData files) with
      | some fd => coverageTripleRef fd line_num
      | none => (false, 0, 0) := by
  intro ks
  induction ks with
  | nil => rfl
  | cons k rest ih =>
    rw [coverageSearch, List.findSome?_cons]
    cases h : lookupFileData files k with
    | some fd => simp [fileCoverageResult_eq_ref]
    | none => simpa using ih

/-- C7: `get_function_coverage` tries the three candidate keys in order
(path as given, prefixed path when a prefix is given, backslash-normalized
path); the first key present in the coverage data determines the result
triple, computed by the claim's formulas; when no key matches the result is
`(False, 0.0, 0)`. -/
theorem get_function_coverage_first_match (files : List (String × FileCoverage))
    (file_path : String) (line_num : Int) (pkg : Option String) :
    getFunctionCoverage files file_path line_num pkg =
      match (tryFileKeys file_path pkg).findSome? (lookupFileData files) with
      | some fd => coverageTripleRef fd line_num
      | none => (false, 0, 0) :=
  coverageSearch_eq_findSome files line_num (tryFileKeys file_path pkg)

/-! ### Prioritizer (`core/prioritizer.py`) -/

/-- `Prioritizer.calculate_priority` (`core/prioritizer.py` lines 9-36). -/
def calculatePriority (impact_score complexity_score confidence
    effort_multiplier : ℚ) : ℚ :=
  let denominator := (complexity_score + 1/10) * (effort_multiplier + 1/10)
  impact_score * confidence / denominator

/-- C9 (amended): two priority entries identical except for complexity
(same normalized impact and confidence, effort derived from each entry's
own complexity as `1 + complexity * 2`), with non-negative complexities and
a positive impact-confidence product: the lower-complexity entry gets a
strictly higher priority. -/
theorem lower_complexity_higher_priority (ni conf c1 c2 : ℚ)
    (hpos : 0 < ni * conf) (h2 : 0 ≤ c2) (hlt : c2 < c1) :
    calculatePriority ni c1 conf (1 + c1 * 2) <
      calculatePriority ni c2 conf (1 + c2 * 2) := by
  unfold calculatePriority
  have hb2 : (0 : ℚ) < c2 + 1/10 := by linarith
  have hb2e : (0 : ℚ) < (1 + c2 * 2) + 1/10 := by linarith
  have hd2 : 0 < (c2 + 1/10) * ((1 + c2 * 2) + 1/10) := mul_pos hb2 hb2e
  have hdlt : (c2 + 1/10) * ((1 + c2 * 2) + 1/10) <
      (c1 + 1/10) * ((1 + c1 * 2) + 1/10) := by nlinarith
  exact div_lt_div_of_pos_left hpos hd2 hdlt

/-- Witness for `lower_complexity_higher_priority`. -/
theorem lower_complexity_higher_priority_witness :
    calculatePriority 100 1 1 (1 + 1 * 2) < calculatePriority 100 0 1 (1 + 0 * 2) :=
  lower_complexity_higher_priority 100 1 1 0 (by norm_num) (by norm_num) (by norm_num)

/-- Counterexample to C9 as stated: with normalized impact 0 (which occurs
whenever the maximum raw impact score is 0) and confidence 1, entries of
complexity 0 and 1 receive the same priority 0 — not strictly higher. -/
theorem lower_complexity_priority_counterexample :
    calculatePriority 0 0 1 (1 + 0 * 2) = calculatePriority 0 1 1 (1 + 1 * 2) ∧
    ¬ (calculatePriority 0 1 1 (1 + 1 * 2) < calculatePriority 0 0 1 (1 + 0 * 2)) := by
  constructor <;> norm_num [calculatePriority]

/-- One input dict of `prioritize_functions`: the fields the function reads
(`function`, `impact_score`, `impact`); remaining payload fields are copied
through unchanged and are not modelled. -/
structure ImpactEntry where
  function : String
  impact_score : ℚ
  impact : ℚ
deriving DecidableEq

/-- One output dict: `item.copy()` (the `base`) plus the four added keys. -/
structure PriorityEntry where
  base : ImpactEntry
  complexity_score : ℚ
  confidence : ℚ
  priority : ℚ
  impact_score_normalized : ℚ
deriving DecidableEq

/-- Python dict lookup in the optional score mappings. -/
def lookupScore : List (String × ℚ) → String → Option ℚ
  | [], _ => none
  | (k, v) :: rest, key => if k = key then some v else lookupScore rest key

/-- The sort key order of `prioritized.sort(key=lambda x: (x["priority"],
x.get("impact", 0)), reverse=True)`: `a` precedes `b` when `a`'s
`(priority, impact)` tuple is lexicographically at least `b`'s. -/
def prioKeyGe (a b : PriorityEntry) : Prop :=
  b.priority < a.priority ∨ (b.priority = a.priority ∧ b.base.impact ≤ a.base.impact)

instance : DecidableRel prioKeyGe := fun a b => by
  unfold prioKeyGe
  infer_instance

instance : IsTotal PriorityEntry prioKeyGe := ⟨by
  intro a b
  unfold prioKeyGe
  rcases lt_trichotomy a.priority b.priority with h | h | h
  · right; left; exact h
  · rcases le_total a.base.impact b.base.impact with h2 | h2
    · right; right; exact ⟨h, h2⟩
    · left; right; exact ⟨h.symm, h2⟩
  · left; left; exact h⟩

instance : IsTrans PriorityEntry prioKeyGe := ⟨by
  intro a b c hab hbc
  unfold prioKeyGe at hab hbc ⊢
  rcases hab with h1 | ⟨h1, h1i⟩ <;> rcases hbc with h2 | ⟨h2, h2i⟩
  · left; exact h2.trans h1
  · left; rw [h2]; exact h1
  · left; rw [← h1]; exact h2
  · right; exact ⟨h2.trans h1, h2i.trans h1i⟩⟩

/-- The per-item body of the `for item in impact_scores` loop
(`core/prioritizer.py` lines 66-100): complexity defaults to 0.5,
confidence to 1.0, impact is normalized by the given divisor, effort is
`1 + complexity * 2`, and the priority formula is applied. -/
def prioritizeEntry (max_impact : ℚ) (complexity_scores confidence_scores :
    Option (List (String × ℚ))) (item : ImpactEntry) : PriorityEntry :=
  let complexity :=
    (complexity_scores.bind (fun l => lookupScore l item.function)).getD (1/2)
  let confidence :=
    (confidence_scores.bind (fun l => lookupScore l item.function)).getD 1
  let raw_impact := item.impact_score
  let normalized_impact := raw_impact / max_impact * 100
  let effort := 1 + complexity * 2
  let priority := calculatePriority normalized_impact complexity confidence effort
  { base := item, complexity_score := complexity, confidence := confidence
    priority := priority, impact_score_normalized := normalized_impact }

/-- `Prioritizer.prioritize_functions` (`core/prioritizer.py` lines 38-108).
An empty input returns `[]`; `max` over the non-empty input is a fold from
its first element; a zero maximum is replaced by 1; Python's stable
in-place `sort` with `reverse=True` is modelled by the (stable) insertion
sort under `prioKeyGe`; the final truthiness test on the filtered list
keeps the unfiltered (sorted) list when filtering empties it.  The Python
guard `complexity_scores and sig in complexity_scores` equals the modelled
`Option.bind`: lookup in an empty mapping yields the default either way. -/
def prioritizeFunctions (impact_scores : List ImpactEntry)
    (complexity_scores confidence_scores : Option (List (String × ℚ))) :
    List PriorityEntry :=
  match impact_scores with
  | [] => []
  | i0 :: rest =>
    let max0 := rest.foldl (fun m it => max m it.impact_score) i0.impact_score
    let max_impact := if max0 = 0 then 1 else max0
    let prioritized := (i0 :: rest).map
      (prioritizeEntry max_impact complexity_scores confidence_scores)
    let sorted := List.insertionSort prioKeyGe prioritized
    let withImpact := sorted.filter (fun f => decide (0 < f.base.impact))
    if withImpact.isEmpty then sorted else withImpact

theorem base_prioritizeEntry (M : ℚ) (cs conf : Option (List (String × ℚ)))
    (item : ImpactEntry) : (prioritizeEntry M cs conf item).base = item := rfl

/-- The sort-filter-fallback tail of `prioritize_functions`, abbreviated
for the proofs below (definitionally equal to the tail of
`prioritizeFunctions` at divisor `M`). -/
def pipelineOut (M : ℚ) (cs conf : Option (List (String × ℚ)))
    (l : List ImpactEntry) : List PriorityEntry :=
  let sorted := List.insertionSort prioKeyGe (l.map (prioritizeEntry M cs conf))
  let withImpact := sorted.filter (fun f => decide (0 < f.base.impact))
  if withImpact.isEmpty then sorted else withImpact

theorem pipeline_facts (M : ℚ) (cs conf : Option (List (String × ℚ)))
    (l : List ImpactEntry) (hl : l ≠ [])
    (hpos : ∀ e ∈ l, 0 ≤ e.impact) :
    (pipelineOut M cs conf l).Pairwise prioKeyGe ∧
    ((∃ e ∈ pipelineOut M cs conf l, e.base.impact = 0) ↔
      (∀ e ∈ l, e.impact = 0)) ∧
    ((∀ e ∈ l, e.impact = 0) → (pipelineOut M cs conf l).length = l.length) := by
  have hPairS : (List.insertionSort prioKeyGe
      (l.map (prioritizeEntry M cs conf))).Pairwise prioKeyGe :=
    List.sorted_insertionSort prioKeyGe _
  have hperm : List.Perm (List.insertionSort prioKeyGe (l.map (prioritizeEntry M cs conf)))
      (l.map (prioritizeEntry M cs conf)) := List.perm_insertionSort prioKeyGe _
  by_cases hz : ∀ e ∈ l, e.impact = 0
  · have hWnil : (List.insertionSort prioKeyGe
        (l.map (prioritizeEntry M cs conf))).filter
        (fun f => decide (0 < f.base.impact)) = [] := by
      rw [List.filter_eq_nil_iff]
      intro e he
      obtain ⟨item, hitem, rfl⟩ := List.mem_map.mp (hperm.mem_iff.mp he)
      simp [base_prioritizeEntry, hz item hitem]
    have hout : pipelineOut M cs conf l =
        List.insertionSort prioKeyGe (l.map (prioritizeEntry M cs conf)) := by
      show (if ((List.insertionSort prioKeyGe (l.map (prioritizeEntry M cs conf))).filter
          (fun f => decide (0 < f.base.impact))).isEmpty
        then List.insertionSort prioKeyGe (l.map (prioritizeEntry M cs conf))
        else (List.insertionSort prioKeyGe (l.map (prioritizeEntry M cs conf))).filter
          (fun f => decide (0 < f.base.impact))) = List.insertionSort prioKeyGe (l.map (prioritizeEntry M cs conf))
      rw [hWnil]
      rfl
    rw [hout]
    refine ⟨hPairS, ?_, ?_⟩
    · constructor
      · intro _
        exact hz
      · intro _
        obtain ⟨e0, rest, rfl⟩ : ∃ e0 rest, l = e0 :: rest := by
          cases l with
          | nil => exact absurd rfl hl
          | cons a b => exact ⟨a, b, rfl⟩
        refine ⟨prioritizeEntry M cs conf e0, ?_, ?_⟩
        · exact hperm.symm.subset (List.mem_map_of_mem _ (List.mem_cons_self e0 rest))
        · rw [base_prioritizeEntry]
          exact hz e0 (List.mem_cons_self e0 rest)
    · intro _
      rw [hperm.length_eq, List.length_map]
  · push_neg at hz
    obtain ⟨e, hel, hez⟩ := hz
    have hegt : 0 < e.impact := lt_of_le_of_ne (hpos e hel) (Ne.symm hez)
    have hmemW : prioritizeEntry M cs conf e ∈
        (List.insertionSort prioKeyGe (l.map (prioritizeEntry M cs conf))).filter
          (fun f => decide (0 < f.base.impact)) := by
      rw [List.mem_filter]
      refine ⟨hperm.symm.subset (List.mem_map_of_mem _ hel), ?_⟩
      simp [base_prioritizeEntry, hegt]
    have hWne : (List.insertionSort prioKeyGe (l.map (prioritizeEntry M cs conf))).filter
        (fun f => decide (0 < f.base.impact)) ≠ [] := List.ne_nil_of_mem hmemW
    have hout : pipelineOut M cs conf l =
        (List.insertionSort prioKeyGe (l.map (prioritizeEntry M cs conf))).filter
          (fun f => decide (0 < f.base.impact)) := by
      show (if ((List.insertionSort prioKeyGe (l.map (prioritizeEntry M cs conf))).filter
          (fun f => decide (0 < f.base.impact))).isEmpty
        then List.insertionSort prioKeyGe (l.map (prioritizeEntry M cs conf))
        else (List.insertionSort prioKeyGe (l.map (prioritizeEntry M cs conf))).filter
          (fun f => decide (0 < f.base.impact))) = (List.insertionSort prioKeyGe (l.map (prioritizeEntry M cs conf))).filter
          (fun f => decide (0 < f.base.impact))
      rw [if_neg (by simpa [List.isEmpty_iff] using hWne)]
    rw [hout]
    refine ⟨hPairS.filter _, ?_, ?_⟩
    · constructor
      · rintro ⟨e2, he2, he2z⟩
        have hgt := (List.mem_filter.mp he2).2
        simp only [decide_eq_true_eq] at hgt
        rw [he2z] at hgt
        exact absurd hgt (lt_irrefl 0)
      · intro hall
        exact absurd (hall e hel) hez
    · intro hall
      exact absurd (hall e hel) hez

/-- C8: the list returned by `prioritize_functions` is sorted descending by
priority with ties broken by descending raw impact (the `impact` field),
and a zero-raw-impact entry appears in the output iff every input entry has
zero raw impact (raw impacts are counts, hence non-negative; the iff is
about non-empty inputs); when all impacts are zero nothing is dropped. -/
theorem prioritize_sorted_zero_filter (input : List ImpactEntry)
    (cs conf : Option (List (String × ℚ)))
    (hpos : ∀ e ∈ input, 0 ≤ e.impact) (hne : input ≠ []) :
    (prioritizeFunctions input cs conf).Pairwise prioKeyGe ∧
    ((∃ e ∈ prioritizeFunctions input cs conf, e.base.impact = 0) ↔
      (∀ e ∈ input, e.impact = 0)) ∧
    ((∀ e ∈ input, e.impact = 0) →
      (prioritizeFunctions input cs conf).length = input.length) := by
  cases input with
  | nil => exact absurd rfl hne
  | cons i0 rest =>
    have heq : prioritizeFunctions (i0 :: rest) cs conf =
        pipelineOut (if rest.foldl (fun m it => max m it.impact_score) i0.impact_score = 0
          then 1 else rest.foldl (fun m it => max m it.impact_score) i0.impact_score)
          cs conf (i0 :: rest) := rfl
    rw [heq]
    exact pipeline_facts _ cs conf (i0 :: rest) (by simp) hpos

/-- Witness for `prioritize_sorted_zero_filter`: one nonzero-impact and one
zero-impact entry. -/
theorem prioritize_sorted_zero_filter_witness :
    (prioritizeFunctions [⟨"a", 2, 1⟩, ⟨"b", 0, 0⟩] none none).Pairwise prioKeyGe ∧
    ((∃ e ∈ prioritizeFunctions [⟨"a", 2, 1⟩, ⟨"b", 0, 0⟩] none none,
        e.base.impact = 0) ↔
      (∀ e ∈ ([⟨"a", 2, 1⟩, ⟨"b", 0, 0⟩] : List ImpactEntry), e.impact = 0)) ∧
    ((∀ e ∈ ([⟨"a", 2, 1⟩, ⟨"b", 0, 0⟩] : List ImpactEntry), e.impact = 0) →
      (prioritizeFunctions [⟨"a", 2, 1⟩, ⟨"b", 0, 0⟩] none none).length =
        ([⟨"a", 2, 1⟩, ⟨"b", 0, 0⟩] : List ImpactEntry).length) :=
  prioritize_sorted_zero_filter [⟨"a", 2, 1⟩, ⟨"b", 0, 0⟩] none none
    (by intro e he; fin_cases he <;> norm_num) (by simp)

theorem pySplit_ne_nil (s sep : String) : pySplit s sep ≠ [] := by
  unfold pySplit
  have h : ∀ (fuel : Nat) (acc rest : List Char),
      splitChars sep.toList fuel acc rest ≠ [] := by
    intro fuel
    induction fuel with
    | zero => intro acc rest; simp [splitChars]
    | succ n ih =>
      intro acc rest
      cases rest with
      | nil => simp [splitChars]
      | cons c cs =>
        rw [splitChars]
        split
        · simp
        · exact ih (c :: acc) cs
  intro hc
  exact h (s.toList.length + 1) [] s.toList (by simpa using hc)

/-- Flattened pair membership in an association list. -/
def occursIn (al : List (String × List String)) (key x : String) : Prop :=
  ∃ p ∈ al, p.1 = key ∧ x ∈ p.2

theorem occursIn_nil {key x : String} :
    occursIn ([] : List (String × List String)) key x ↔ False := by
  simp [occursIn]

theorem occursIn_cons {p : String × List String}
    {rest : List (String × List String)} {key x : String} :
    occursIn (p :: rest) key x ↔ (p.1 = key ∧ x ∈ p.2) ∨ occursIn rest key x := by
  unfold occursIn
  constructor
  · rintro ⟨q, hq, h1, h2⟩
    rcases List.mem_cons.mp hq with rfl | h
    · exact Or.inl ⟨h1, h2⟩
    · exact Or.inr ⟨q, h, h1, h2⟩
  · rintro (⟨h1, h2⟩ | ⟨q, hq, h1, h2⟩)
    · exact ⟨p, List.mem_cons_self _ _, h1, h2⟩
    · exact ⟨q, List.mem_cons_of_mem _ hq, h1, h2⟩

theorem occursIn_assocAppend (al : List (String × List String)) (k v key x : String) :
    occursIn (assocAppend al k v) key x ↔ occursIn al key x ∨ (key = k ∧ x = v) := by
  induction al with
  | nil =>
    rw [show assocAppend [] k v = [(k, [v])] from rfl, occursIn_cons]
    rw [occursIn_nil]
    simp only [List.mem_singleton, or_false, false_or]
    constructor
    · rintro ⟨h1, h2⟩
      exact ⟨h1.symm, h2⟩
    · rintro ⟨h1, h2⟩
      exact ⟨h1.symm, h2⟩
  | cons p rest ih =>
    obtain ⟨k1, vs⟩ := p
    rw [show assocAppend ((k1, vs) :: rest) k v =
      (if k1 = k then (k1, vs ++ [v]) :: rest
       else (k1, vs) :: assocAppend rest k v) from rfl]
    by_cases h : k1 = k
    · rw [if_pos h, occursIn_cons, occursIn_cons]
      simp only [List.mem_append, List.mem_singleton]
      constructor
      · rintro (⟨h1, h2 | h2⟩ | h2)
        · exact Or.inl (Or.inl ⟨h1, h2⟩)
        · exact Or.inr ⟨h1.symm.trans h, h2⟩
        · exact Or.inl (Or.inr h2)
      · rintro ((⟨h1, h2⟩ | h2) | ⟨h1, h2⟩)
        · exact Or.inl ⟨h1, Or.inl h2⟩
        · exact Or.inr h2
        · exact Or.inl ⟨h.trans h1.symm, Or.inr h2⟩
    · rw [if_neg h, occursIn_cons, occursIn_cons, ih]
      tauto

theorem mem_findMethodMatches_aux (m x : String) :
    ∀ (cm : List (String × List String)) (a : List String),
    (x ∈ cm.foldl (fun acc p => if afterFirstDot p.1 = m then acc ++ p.2 else acc) a ↔
      x ∈ a ∨ ∃ p ∈ cm, afterFirstDot p.1 = m ∧ x ∈ p.2) := by
  intro cm
  induction cm with
  | nil => simp
  | cons p rest ih =>
    intro a
    rw [List.foldl_cons]
    by_cases h : afterFirstDot p.1 = m
    · rw [if_pos h, ih]
      simp only [List.mem_append, List.mem_cons, exists_eq_or_imp, h, true_and]
      tauto
    · rw [if_neg h, ih]
      simp only [List.mem_cons, exists_eq_or_imp, h, false_and, false_or]

theorem mem_findMethodMatches {m x : String} {cm : List (String × List String)} :
    x ∈ findMethodMatches m cm ↔
      ∃ key, afterFirstDot key = m ∧ occursIn cm key x := by
  unfold findMethodMatches
  rw [mem_findMethodMatches_aux]
  simp only [List.not_mem_nil, false_or]
  constructor
  · rintro ⟨p, hp, h1, h2⟩
    exact ⟨p.1, h1, ⟨p, hp, rfl, h2⟩⟩
  · rintro ⟨key, h1, ⟨p, hp, hk, h2⟩⟩
    refine ⟨p, hp, ?_, h2⟩
    rw [hk]
    exact h1

/-- The method-node test of `_build_class_methods_mapping`: a truthy
`class_name` and a key containing `"::"` and `"."`. -/
def isMethodNode (g : CallGraph) (k : String) : Bool :=
  optTruthy (lookupNode g k).class_name && strContains k "::" && strContains k "."

/-- The bucket key `f"{class_name}.{method_name}"`. -/
def bucketKey (g : CallGraph) (k : String) : String :=
  (lookupNode g k).class_name.getD "" ++ "." ++ lastSeg k

theorem occursIn_buildCM_aux (g : CallGraph) :
    ∀ (ks : List String) (acc : List (String × List String)) (key x : String),
    occursIn (ks.foldl (fun acc full_name =>
      match (lookupNode g full_name).class_name with
      | some cn =>
        if (cn != "") && strContains full_name "::" && strContains full_name "." then
          assocAppend acc (cn ++ "." ++ lastSeg full_name) full_name
        else acc
      | none => acc) acc) key x ↔
      occursIn acc key x ∨
      ∃ k ∈ ks, isMethodNode g k = true ∧ key = bucketKey g k ∧ x = k := by
  intro ks
  induction ks with
  | nil => simp
  | cons k rest ih =>
    intro acc key x
    simp only [List.mem_cons, exists_eq_or_imp]
    cases hcn : (lookupNode g k).class_name with
    | none =>
      simp only [List.foldl_cons, hcn]
      rw [ih]
      have hmn : isMethodNode g k = false := by
        simp [isMethodNode, hcn, optTruthy]
      simp [hmn]
    | some cn =>
      by_cases hcond : ((cn != "") && strContains k "::" && strContains k ".") = true
      · simp only [List.foldl_cons, hcn, if_pos hcond]
        rw [ih, occursIn_assocAppend]
        have hmn : isMethodNode g k = true := by
          simp only [isMethodNode, hcn, optTruthy]
          exact hcond
        have hbk : bucketKey g k = cn ++ "." ++ lastSeg k := by
          simp [bucketKey, hcn]
        simp only [hmn, hbk, true_and]
        tauto
      · simp only [List.foldl_cons, hcn, if_neg hcond]
        rw [ih]
        have hmn : isMethodNode g k = false := by
          simp only [isMethodNode, hcn, optTruthy]
          simpa using hcond
        simp [hmn]

theorem occursIn_buildClassMethods (g : CallGraph) (key x : String) :
    occursIn (buildClassMethods g) key x ↔
      ∃ k ∈ g.keys, isMethodNode g k = true ∧ key = bucketKey g k ∧ x = k := by
  unfold buildClassMethods
  rw [occursIn_buildCM_aux]
  simp [occursIn_nil]

/-- Modelled from the spec: the method keys whose bare method name
(last dot-segment) is `m` — "the bare method name of at least one method
node in the graph". -/
def methodKeysFor (g : CallGraph) (m : String) : List String :=
  g.keys.filter (fun k => isMethodNode g k && (lastSeg k == m))

theorem mem_matches_iff (g : CallGraph)
    (hwf : ∀ k ∈ g.keys, ∀ cn, (lookupNode g k).class_name = some cn →
      afterFirstDot (cn ++ "." ++ lastSeg k) = lastSeg k)
    (m x : String) :
    x ∈ findMethodMatches m (buildClassMethods g) ↔ x ∈ methodKeysFor g m := by
  rw [mem_findMethodMatches]
  constructor
  · rintro ⟨key, hkm, ho⟩
    rw [occursIn_buildClassMethods] at ho
    obtain ⟨k, hk, hmn, hkey, rfl⟩ := ho
    obtain ⟨cn, hcn⟩ : ∃ cn, (lookupNode g x).class_name = some cn := by
      cases hc : (lookupNode g x).class_name with
      | none =>
        rw [isMethodNode, hc] at hmn
        simp [optTruthy] at hmn
      | some cn => exact ⟨cn, rfl⟩
    have hbk : bucketKey g x = cn ++ "." ++ lastSeg x := by
      simp [bucketKey, hcn]
    rw [hkey, hbk, hwf x hk cn hcn] at hkm
    rw [methodKeysFor, List.mem_filter]
    refine ⟨hk, ?_⟩
    simp [hmn, hkm]
  · intro hx
    rw [methodKeysFor, List.mem_filter] at hx
    obtain ⟨hk, hcond⟩ := hx
    rw [Bool.and_eq_true] at hcond
    have hmn : isMethodNode g x = true := hcond.1
    have hlm : lastSeg x = m := by
      have := hcond.2
      simpa using this
    obtain ⟨cn, hcn⟩ : ∃ cn, (lookupNode g x).class_name = some cn := by
      cases hc : (lookupNode g x).class_name with
      | none =>
        rw [isMethodNode, hc] at hmn
        simp [optTruthy] at hmn
      | some cn => exact ⟨cn, rfl⟩
    refine ⟨bucketKey g x, ?_, ?_⟩
    · have hbk : bucketKey g x = cn ++ "." ++ lastSeg x := by
        simp [bucketKey, hcn]
      rw [hbk, hwf x hk cn hcn, hlm]
    · rw [occursIn_buildClassMethods]
      exact ⟨x, hk, hmn, rfl, rfl⟩

theorem matches_nil_iff (g : CallGraph)
    (hwf : ∀ k ∈ g.keys, ∀ cn, (lookupNode g k).class_name = some cn →
      afterFirstDot (cn ++ "." ++ lastSeg k) = lastSeg k)
    (m : String) :
    findMethodMatches m (buildClassMethods g) = [] ↔ methodKeysFor g m = [] := by
  rw [List.eq_nil_iff_forall_not_mem, List.eq_nil_iff_forall_not_mem]
  constructor
  · intro h x hx
    exact h x ((mem_matches_iff g hwf m x).mpr hx)
  · intro h x hx
    exact h x ((mem_matches_iff g hwf m x).mp hx)

theorem resolveMethodCall_eq (c : String) (cm : List (String × List String)) :
    resolveMethodCall c cm =
      if ((pySplit c ".").length = 2 ∨ (pySplit c ".").length = 3) ∧
          findMethodMatches (lastSeg c) cm ≠ [] then
        (findMethodMatches (lastSeg c) cm, [c])
      else ([], []) := by
  unfold resolveMethodCall
  by_cases hdot : strContains c "." = true
  · rw [if_neg (by simp [hdot])]
    by_cases h2 : (pySplit c ".").length = 2
    · rw [if_pos h2]
      obtain ⟨a, b, hab⟩ := List.length_eq_two.mp h2
      have hseg : (pySplit c ".").getD 1 "" = lastSeg c := by
        rw [lastSeg, hab]
        rfl
      rw [hseg]
      by_cases hm : (findMethodMatches (lastSeg c) cm).isEmpty = true
      · rw [if_pos hm]
        rw [if_neg (by simp [List.isEmpty_iff.mp hm])]
      · rw [if_neg hm]
        rw [if_pos ⟨Or.inl h2, by simpa [List.isEmpty_iff] using hm⟩]
    · rw [if_neg h2]
      by_cases h3 : (pySplit c ".").length = 3
      · rw [if_pos h3]
        have hseg : (pySplit c ".").getLastD "" = lastSeg c := rfl
        rw [hseg]
        by_cases hm : (findMethodMatches (lastSeg c) cm).isEmpty = true
        · rw [if_pos hm]
          rw [if_neg (by simp [List.isEmpty_iff.mp hm])]
        · rw [if_neg hm]
          rw [if_pos ⟨Or.inr h3, by simpa [List.isEmpty_iff] using hm⟩]
      · rw [if_neg h3]
        rw [if_neg (by tauto)]
  · have hone : (pySplit c ".").length = 1 := by
      have := hdot
      rw [strContains] at this
      simpa using this
    rw [if_pos (by simp [hdot])]
    rw [if_neg (by rw [hone]; simp)]

theorem scan_foldl_eq (cm : List (String × List String)) :
    ∀ (l : List String) (a b : List String),
    l.foldl (fun (acc : List String × List String) call =>
      let r := resolveMethodCall call cm
      (acc.1 ++ r.1, acc.2 ++ r.2)) (a, b) =
    (a ++ (l.map (fun c => (resolveMethodCall c cm).1)).flatten,
     b ++ (l.map (fun c => (resolveMethodCall c cm).2)).flatten) := by
  intro l
  induction l with
  | nil => intro a b; simp
  | cons c rest ih =>
    intro a b
    rw [List.foldl_cons]
    show rest.foldl _ (a ++ (resolveMethodCall c cm).1, b ++ (resolveMethodCall c cm).2) = _
    rw [ih]
    simp [List.append_assoc]

theorem calls_foldl_remove (caller : String) :
    ∀ (l : List String) (h : CallGraph) (j : String),
    (lookupNode (l.foldl (fun hh c => removeCallEdge hh caller c) h) j).calls =
      if j = caller then l.foldl (fun s c => s.erase c) (lookupNode h caller).calls
      else (lookupNode h j).calls := by
  intro l
  induction l with
  | nil =>
    intro h j
    by_cases hj : j = caller
    · subst hj; simp
    · simp [hj]
  | cons c rest ih =>
    intro h j
    rw [List.foldl_cons, ih, List.foldl_cons]
    by_cases hj : j = caller
    · subst hj
      rw [if_pos rfl, if_pos rfl, calls_removeCallEdge, if_pos rfl]
    · rw [if_neg hj, if_neg hj, calls_removeCallEdge, if_neg hj]

theorem calls_foldl_add (caller : String) :
    ∀ (l : List String) (h : CallGraph) (j : String),
    (lookupNode (l.foldl (fun hh c => addCall hh caller c) h) j).calls =
      if j = caller then l.foldl (fun s c => insert c s) (lookupNode h caller).calls
      else (lookupNode h j).calls := by
  intro l
  induction l with
  | nil =>
    intro h j
    by_cases hj : j = caller
    · subst hj; simp
    · simp [hj]
  | cons c rest ih =>
    intro h j
    rw [List.foldl_cons, ih, List.foldl_cons]
    by_cases hj : j = caller
    · subst hj
      rw [if_pos rfl, if_pos rfl, calls_addCall, if_pos rfl]
    · rw [if_neg hj, if_neg hj, calls_addCall, if_neg hj]

theorem foldl_erase_eq : ∀ (l : List String) (s : Finset String),
    l.foldl (fun s c => s.erase c) s = s \ l.toFinset := by
  intro l
  induction l with
  | nil => intro s; simp
  | cons c rest ih =>
    intro s
    rw [List.foldl_cons, ih]
    ext x
    simp only [Finset.mem_sdiff, Finset.mem_erase, List.mem_toFinset, List.mem_cons,
      List.toFinset_cons, Finset.mem_insert]
    tauto

theorem foldl_insert_eq : ∀ (l : List String) (s : Finset String),
    l.foldl (fun s c => insert c s) s = s ∪ l.toFinset := by
  intro l
  induction l with
  | nil => intro s; simp
  | cons c rest ih =>
    intro s
    rw [List.foldl_cons, ih]
    ext x
    simp only [Finset.mem_union, Finset.mem_insert, List.mem_toFinset, List.mem_cons,
      List.toFinset_cons]
    tauto

theorem calls_updateCallsForCaller (h : CallGraph) (caller : String)
    (toAdd toRemove : List String) (j : String) :
    (lookupNode (updateCallsForCaller h caller toAdd toRemove) j).calls =
      if j = caller then
        ((lookupNode h caller).calls \ toRemove.toFinset) ∪ toAdd.toFinset
      else (lookupNode h j).calls := by
  unfold updateCallsForCaller
  rw [calls_foldl_add]
  by_cases hj : j = caller
  · rw [if_pos hj, if_pos hj, foldl_insert_eq, calls_foldl_remove, if_pos rfl,
      foldl_erase_eq]
  · rw [if_neg hj, if_neg hj, calls_foldl_remove, if_neg hj]

/-- The per-caller set transformation `resolve_method_calls` performs, in
terms of the precomputed index `cm`. -/
def implTransform (cm : List (String × List String)) (cs : Finset String) :
    Finset String :=
  (cs.filter (fun c => (resolveMethodCall c cm).2 = [])) ∪
  cs.biUnion (fun c => (resolveMethodCall c cm).1.toFinset)

theorem mem_resolve_snd {x c : String} {cm : List (String × List String)} :
    x ∈ (resolveMethodCall c cm).2 ↔ x = c ∧ (resolveMethodCall c cm).2 ≠ [] := by
  rw [resolveMethodCall_eq]
  split
  · simp
  · simp

theorem update_result_eq (cm : List (String × List String)) (cs : Finset String) :
    (cs \ (((sortedList cs).map (fun c => (resolveMethodCall c cm).2)).flatten).toFinset) ∪
      (((sortedList cs).map (fun c => (resolveMethodCall c cm).1)).flatten).toFinset =
    implTransform cm cs := by
  ext x
  simp only [implTransform, Finset.mem_union, Finset.mem_sdiff, Finset.mem_filter,
    Finset.mem_biUnion, List.mem_toFinset, List.mem_flatten, List.mem_map]
  constructor
  · rintro (⟨hx, hnr⟩ | ⟨l, ⟨c, hc, rfl⟩, hxl⟩)
    · left
      refine ⟨hx, ?_⟩
      by_contra hne
      exact hnr ⟨(resolveMethodCall x cm).2, ⟨x, mem_sortedList.mpr hx, rfl⟩,
        mem_resolve_snd.mpr ⟨rfl, hne⟩⟩
    · right
      exact ⟨c, mem_sortedList.mp hc, hxl⟩
  · rintro (⟨hx, hr⟩ | ⟨c, hc, hxc⟩)
    · left
      refine ⟨hx, ?_⟩
      rintro ⟨l, ⟨c, _, rfl⟩, hxl⟩
      obtain ⟨rfl, hne⟩ := mem_resolve_snd.mp hxl
      exact hne hr
    · right
      exact ⟨(resolveMethodCall c cm).1, ⟨c, mem_sortedList.mpr hc, rfl⟩, hxc⟩

theorem implTransform_eq_self (cm : List (String × List String)) (cs : Finset String)
    (ha : ((sortedList cs).map (fun c => (resolveMethodCall c cm).1)).flatten = [])
    (hr : ((sortedList cs).map (fun c => (resolveMethodCall c cm).2)).flatten = []) :
    implTransform cm cs = cs := by
  have hall : ∀ c ∈ cs, (resolveMethodCall c cm).2 = [] := by
    intro c hc
    have hm : (resolveMethodCall c cm).2 ∈
        (sortedList cs).map (fun c => (resolveMethodCall c cm).2) :=
      List.mem_map_of_mem _ (mem_sortedList.mpr hc)
    exact List.flatten_eq_nil_iff.mp hr _ hm
  have halla : ∀ c ∈ cs, (resolveMethodCall c cm).1 = [] := by
    intro c hc
    have hm : (resolveMethodCall c cm).1 ∈
        (sortedList cs).map (fun c => (resolveMethodCall c cm).1) :=
      List.mem_map_of_mem _ (mem_sortedList.mpr hc)
    exact List.flatten_eq_nil_iff.mp ha _ hm
  unfold implTransform
  rw [Finset.filter_true_of_mem hall]
  have hb : cs.biUnion (fun c => (resolveMethodCall c cm).1.toFinset) = ∅ := by
    ext x
    simp only [Finset.mem_biUnion, Finset.not_mem_empty, iff_false, not_exists]
    intro c hcc
    obtain ⟨hc, hx⟩ := hcc
    rw [halla c hc] at hx
    simp at hx
  rw [hb, Finset.union_empty]

theorem calls_resolve_step (cm : List (String × List String)) (h : CallGraph)
    (caller : String) (j : String) :
    (lookupNode ((fun gacc caller_name =>
      let scan := (sortedList (lookupNode gacc caller_name).calls).foldl
        (fun (acc : List String × List String) call =>
          let r := resolveMethodCall call cm
          (acc.1 ++ r.1, acc.2 ++ r.2)) ([], [])
      if scan.1 = [] ∧ scan.2 = [] then gacc
      else updateCallsForCaller gacc caller_name scan.1 scan.2) h caller) j).calls =
    if j = caller then implTransform cm ((lookupNode h caller).calls)
    else (lookupNode h j).calls := by
  show (lookupNode (
      if ((sortedList (lookupNode h caller).calls).foldl
          (fun (acc : List String × List String) call =>
            let r := resolveMethodCall call cm
            (acc.1 ++ r.1, acc.2 ++ r.2)) ([], [])).1 = [] ∧
        ((sortedList (lookupNode h caller).calls).foldl
          (fun (acc : List String × List String) call =>
            let r := resolveMethodCall call cm
            (acc.1 ++ r.1, acc.2 ++ r.2)) ([], [])).2 = []
      then h
      else updateCallsForCaller h caller
        ((sortedList (lookupNode h caller).calls).foldl
          (fun (acc : List String × List String) call =>
            let r := resolveMethodCall call cm
            (acc.1 ++ r.1, acc.2 ++ r.2)) ([], [])).1
        ((sortedList (lookupNode h caller).calls).foldl
          (fun (acc : List String × List String) call =>
            let r := resolveMethodCall call cm
            (acc.1 ++ r.1, acc.2 ++ r.2)) ([], [])).2) j).calls = _
  rw [scan_foldl_eq]
  simp only [List.nil_append]
  by_cases hc :
      ((sortedList (lookupNode h caller).calls).map
        (fun c => (resolveMethodCall c cm).1)).flatten = [] ∧
      ((sortedList (lookupNode h caller).calls).map
        (fun c => (resolveMethodCall c cm).2)).flatten = []
  · rw [if_pos hc]
    by_cases hj : j = caller
    · subst hj
      rw [if_pos rfl, implTransform_eq_self cm _ hc.1 hc.2]
    · rw [if_neg hj]
  · rw [if_neg hc, calls_updateCallsForCaller]
    by_cases hj : j = caller
    · rw [if_pos hj, if_pos hj, update_result_eq]
    · rw [if_neg hj, if_neg hj]

theorem resolve_fold_calls (cm : List (String × List String)) (g : CallGraph) :
    ∀ (ks : List String) (h : CallGraph), ks.Nodup →
    (∀ j ∈ ks, (lookupNode h j).calls = (lookupNode g j).calls) →
    ∀ j, (lookupNode (ks.foldl (fun gacc caller_name =>
        let scan := (sortedList (lookupNode gacc caller_name).calls).foldl
          (fun (acc : List String × List String) call =>
            let r := resolveMethodCall call cm
            (acc.1 ++ r.1, acc.2 ++ r.2)) ([], [])
        if scan.1 = [] ∧ scan.2 = [] then gacc
        else updateCallsForCaller gacc caller_name scan.1 scan.2) h) j).calls =
      if j ∈ ks then implTransform cm ((lookupNode g j).calls)
      else (lookupNode h j).calls := by
  intro ks
  induction ks with
  | nil =>
    intro h _ _ j
    simp
  | cons caller rest ih =>
    intro h hnd hsame j
    rw [List.foldl_cons]
    have hndr : rest.Nodup := (List.nodup_cons.mp hnd).2
    have hcnr : caller ∉ rest := (List.nodup_cons.mp hnd).1
    have hcs : (lookupNode h caller).calls = (lookupNode g caller).calls :=
      hsame caller (List.mem_cons_self caller rest)
    have hsame2 : ∀ j2 ∈ rest, (lookupNode ((fun gacc caller_name =>
        let scan := (sortedList (lookupNode gacc caller_name).calls).foldl
          (fun (acc : List String × List String) call =>
            let r := resolveMethodCall call cm
            (acc.1 ++ r.1, acc.2 ++ r.2)) ([], [])
        if scan.1 = [] ∧ scan.2 = [] then gacc
        else updateCallsForCaller gacc caller_name scan.1 scan.2) h caller) j2).calls =
        (lookupNode g j2).calls := by
      intro j2 hj2
      rw [calls_resolve_step]
      rw [if_neg ?_]
      · exact hsame j2 (List.mem_cons_of_mem caller hj2)
      · intro hjc
        rw [hjc] at hj2
        exact hcnr hj2
    rw [ih _ hndr hsame2 j]
    by_cases hjr : j ∈ rest
    · rw [if_pos hjr, if_pos (List.mem_cons_of_mem caller hjr)]
    · rw [if_neg hjr, calls_resolve_step]
      by_cases hjc : j = caller
      · rw [if_pos hjc, if_pos (by rw [hjc]; exact List.mem_cons_self caller rest)]
        rw [hjc, hcs]
      · rw [if_neg hjc, if_neg (by simp [hjc, hjr])]

/-- Modelled from the spec: a callee string is subject to resolution iff it
has exactly two or three dot-separated segments and its last segment is the
bare method name of at least one method node in the graph. -/
def resolvableCall (g : CallGraph) (c : String) : Bool :=
  (((pySplit c ".").length == 2) || ((pySplit c ".").length == 3)) &&
  !(methodKeysFor g (lastSeg c)).isEmpty

/-- Modelled from the spec: the per-caller rewriting claimed for
`resolve_method_calls` — resolvable callee strings are replaced by edges to
all method keys sharing the bare method name, everything else is kept. -/
def resolveCallsRef (g : CallGraph) (cs : Finset String) : Finset String :=
  cs.filter (fun c => resolvableCall g c = false) ∪
  cs.biUnion (fun c =>
    if resolvableCall g c = true then (methodKeysFor g (lastSeg c)).toFinset else ∅)

theorem resolvableCall_true_iff (g : CallGraph)
    (hwf : ∀ k ∈ g.keys, ∀ cn, (lookupNode g k).class_name = some cn →
      afterFirstDot (cn ++ "." ++ lastSeg k) = lastSeg k) (c : String) :
    resolvableCall g c = true ↔
      (((pySplit c ".").length = 2 ∨ (pySplit c ".").length = 3) ∧
        findMethodMatches (lastSeg c) (buildClassMethods g) ≠ []) := by
  unfold resolvableCall
  rw [Bool.and_eq_true, Bool.or_eq_true]
  simp only [beq_iff_eq, Bool.not_eq_true', List.isEmpty_eq_false]
  rw [Ne, Ne, matches_nil_iff g hwf]

theorem resolve_snd_iff (g : CallGraph)
    (hwf : ∀ k ∈ g.keys, ∀ cn, (lookupNode g k).class_name = some cn →
      afterFirstDot (cn ++ "." ++ lastSeg k) = lastSeg k) (c : String) :
    ((resolveMethodCall c (buildClassMethods g)).2 = []) ↔
      resolvableCall g c = false := by
  rw [resolveMethodCall_eq]
  by_cases hcond : ((pySplit c ".").length = 2 ∨ (pySplit c ".").length = 3) ∧
      findMethodMatches (lastSeg c) (buildClassMethods g) ≠ []
  · rw [if_pos hcond]
    constructor
    · intro hfalse
      exact absurd hfalse (by simp)
    · intro hf
      exact absurd ((resolvableCall_true_iff g hwf c).mpr hcond) (by simp [hf])
  · rw [if_neg hcond]
    simp only [eq_self_iff_true, true_iff]
    rw [Bool.eq_false_iff]
    intro ht
    exact hcond ((resolvableCall_true_iff g hwf c).mp ht)

theorem resolve_fst_toFinset (g : CallGraph)
    (hwf : ∀ k ∈ g.keys, ∀ cn, (lookupNode g k).class_name = some cn →
      afterFirstDot (cn ++ "." ++ lastSeg k) = lastSeg k) (c : String) :
    (resolveMethodCall c (buildClassMethods g)).1.toFinset =
      if resolvableCall g c = true then (methodKeysFor g (lastSeg c)).toFinset
      else ∅ := by
  rw [resolveMethodCall_eq]
  by_cases hcond : ((pySplit c ".").length = 2 ∨ (pySplit c ".").length = 3) ∧
      findMethodMatches (lastSeg c) (buildClassMethods g) ≠ []
  · rw [if_pos hcond, if_pos ((resolvableCall_true_iff g hwf c).mpr hcond)]
    ext x
    simp only [List.mem_toFinset]
    exact mem_matches_iff g hwf (lastSeg c) x
  · rw [if_neg hcond, if_neg (fun ht => hcond ((resolvableCall_true_iff g hwf c).mp ht))]
    simp

theorem implTransform_eq_ref (g : CallGraph)
    (hwf : ∀ k ∈ g.keys, ∀ cn, (lookupNode g k).class_name = some cn →
      afterFirstDot (cn ++ "." ++ lastSeg k) = lastSeg k) (cs : Finset String) :
    implTransform (buildClassMethods g) cs = resolveCallsRef g cs := by
  unfold implTransform resolveCallsRef
  congr 1
  · apply Finset.filter_congr
    intro c _
    exact resolve_snd_iff g hwf c
  · apply Finset.biUnion_congr rfl
    intro c _
    exact resolve_fst_toFinset g hwf c

/-- C6: `resolve_method_calls` rewrites exactly the callee strings with two
or three dot-separated segments whose last segment is the bare method name
of at least one method node; each such edge is replaced by edges to all
matching method keys, and every other callee string is kept, for every
caller.  Hypotheses: the key list is duplicate-free (true of every Python
dict) and class names do not interfere with the `split(".", 1)` round-trip
of the bucket keys (true of Python class identifiers, which contain no
dot). -/
theorem resolve_method_calls_characterization (g : CallGraph)
    (hnd : g.keys.Nodup)
    (hwf : ∀ k ∈ g.keys, ∀ cn, (lookupNode g k).class_name = some cn →
      afterFirstDot (cn ++ "." ++ lastSeg k) = lastSeg k) :
    ∀ k, (lookupNode (resolveMethodCalls g) k).calls =
      resolveCallsRef g ((lookupNode g k).calls) := by
  intro k
  have h := resolve_fold_calls (buildClassMethods g) g g.keys g hnd (fun j _ => rfl) k
  have hres : (lookupNode (resolveMethodCalls g) k).calls =
      if k ∈ g.keys then implTransform (buildClassMethods g) ((lookupNode g k).calls)
      else (lookupNode g k).calls := by
    unfold resolveMethodCalls
    exact h
  rw [hres]
  by_cases hk : k ∈ g.keys
  · rw [if_pos hk, implTransform_eq_ref g hwf]
  · rw [if_neg hk]
    have hcalls : (lookupNode g k).calls = ∅ := by
      rw [lookupNode, if_neg hk]
      rfl
    rw [hcalls]
    simp [resolveCallsRef]

/-- A concrete graph with one method `save` on class `M` and a caller with
the raw edge `x.save`. -/
def saveGraph : CallGraph :=
  addCall
    (addFunction
      (addFunction emptyCallGraph "a.py::M.save" "a.py" 3 true (some "M"))
      "a.py::f" "a.py" 10 false none)
    "a.py::f" "x.save"

theorem resolve_method_calls_characterization_witness :
    (lookupNode (resolveMethodCalls saveGraph) "a.py::f").calls =
      resolveCallsRef saveGraph ((lookupNode saveGraph "a.py::f").calls) ∧
    (lookupNode (resolveMethodCalls saveGraph) "a.py::f").calls =
      {"a.py::M.save"} := by
  constructor
  · refine resolve_method_calls_characterization saveGraph (by decide) ?_ "a.py::f"
    intro k hk cn hcn
    fin_cases hk
    · rw [show (lookupNode saveGraph "a.py::M.save").class_name = some "M" from by decide]
        at hcn
      obtain rfl : "M" = cn := Option.some_inj.mp hcn
      decide
    · rw [show (lookupNode saveGraph "a.py::f").class_name = none from by decide] at hcn
      cases hcn
    · rw [show (lookupNode saveGraph "x.save").class_name = none from by decide] at hcn
      cases hcn
  · decide
